import Mathlib

/-!
Difficulty arithmetic of `core/types/pow/diff.go` and the name resolution of
`cmd/bx/bx.go`.

A shallow embedding of `CompactToBig`, `BigToCompact`, `CalcWork`, `HashToBig`,
`CalcCuckooDiff`, `CuckooDiffToTarget` and `mergeDifficulty`, and of
`getNetWork`, `getCuckooScale` and the handler of `target-to-compact`.  A
`uint32` is a natural number below `2 ^ 32` (truncations are written
`% 2 ^ 32`), a `*big.Int` is an `Int`, handled as sign and magnitude the way
`math/big` stores it, and a division by zero is the result `none`.
-/

namespace Pow

/-- Number of base-`b` digits of `n`, by repeated division; `fuel` bounds the
number of divisions and `fuel = n` always suffices. -/
def digitCount (b : Nat) : Nat → Nat → Nat
  | 0, _ => 0
  | fuel + 1, n => if n = 0 then 0 else digitCount b fuel (n / b) + 1

/-- Value of `n.BitLen()` for a `big.Int` of magnitude `n`. -/
def bitLen (n : Nat) : Nat :=
  digitCount 2 n n

/-- Value of `len(n.Bytes())` for a `big.Int` of magnitude `n`: the number of
bytes of the magnitude, without leading zero bytes. -/
def bytesLen (n : Nat) : Nat :=
  digitCount 256 n n

/-- `(*big.Int).Lsh`: the magnitude is shifted left and the sign is kept. -/
def Lsh (x : Int) (n : Nat) : Int :=
  if x < 0 then -((x.natAbs <<< n : Nat) : Int) else ((x.natAbs <<< n : Nat) : Int)

/-- `(*big.Int).Rsh`: an arithmetic shift.  For a negative `x` the library
computes the magnitude `((|x| - 1) >> n) + 1` and keeps the sign, so the
result is rounded towards negative infinity. -/
def Rsh (x : Int) (n : Nat) : Int :=
  if x < 0 then -((((x.natAbs - 1) >>> n) + 1 : Nat) : Int) else ((x.natAbs >>> n : Nat) : Int)

/-- `CompactToBig` of diff.go, on a `uint32` given as a natural number. -/
def CompactToBig (compact : Nat) : Int :=
  let mantissa := compact &&& 0x007fffff
  let isNegative := compact &&& 0x00800000 != 0
  let exponent := compact >>> 24
  let bn : Int :=
    if exponent ≤ 3 then
      ((mantissa >>> (8 * (3 - exponent)) : Nat) : Int)
    else
      Lsh (mantissa : Int) (8 * (exponent - 3))
  if isNegative then -bn else bn

/-- `BigToCompact` of diff.go.  `uint32(n.Bits()[0])` is the magnitude modulo
`2 ^ 32`, and the `uint32` operations that can overflow are reduced modulo
`2 ^ 32`. -/
def BigToCompact (n : Int) : Nat :=
  if n = 0 then 0 else
    let exponent := bytesLen n.natAbs
    let mantissa : Nat :=
      if exponent ≤ 3 then
        ((n.natAbs % 2 ^ 32) <<< (8 * (3 - exponent))) % 2 ^ 32
      else
        (Rsh n (8 * (exponent - 3))).natAbs % 2 ^ 32
    let renorm := mantissa &&& 0x00800000 != 0
    let mantissa := if renorm then mantissa >>> 8 else mantissa
    let exponent := if renorm then exponent + 1 else exponent
    let compact := ((exponent <<< 24) % 2 ^ 32) ||| mantissa
    if n < 0 then compact ||| 0x00800000 else compact

/-! ### Auxiliary definitions used to state the results -/

/-- Decoding rule on the three fields of a compact value: exponent, sign,
mantissa. -/
def decodeFields (e : Nat) (s : Bool) (m : Nat) : Int :=
  if s then -((if e ≤ 3 then m / 2 ^ (8 * (3 - e)) else m * 2 ^ (8 * (e - 3)) : Nat) : Int)
  else ((if e ≤ 3 then m / 2 ^ (8 * (3 - e)) else m * 2 ^ (8 * (e - 3)) : Nat) : Int)

/-- Mantissa before renormalisation for a positive magnitude `t` of `k + 1`
bytes. -/
def rawMantissa (k t : Nat) : Nat :=
  if k + 1 ≤ 3 then t * 2 ^ (8 * (3 - (k + 1))) else t / 2 ^ (8 * (k + 1 - 3))

/-- Number of low-order bytes that the round trip clears from a positive number
of `k + 1` bytes. -/
def lostBytes (k t : Nat) : Nat :=
  if rawMantissa k t < 2 ^ 23 then k + 1 - 3 else k + 2 - 3

/-- Magnitude that the decoding rule assigns to a compact value, in the words
of the specification: mantissa `m = c & 0x007fffff`, exponent `e = c >> 24`,
`floor (m / 2^(8*(3-e)))` when `e ≤ 3` and `m * 2^(8*(e-3))` otherwise. -/
def specMagnitude (c : Nat) : Nat :=
  if c >>> 24 ≤ 3 then (c &&& 0x007fffff) / 2 ^ (8 * (3 - (c >>> 24)))
  else (c &&& 0x007fffff) * 2 ^ (8 * ((c >>> 24) - 3))

/-- Sign bit of a compact value, in the words of the specification:
`c & 0x00800000 != 0`. -/
def specSign (c : Nat) : Bool :=
  c &&& 0x00800000 != 0

/-- Mantissa that the encoding rule of the specification computes before
renormalisation, with `e` the number of bytes of `t`. -/
def specMantissa (t : Nat) : Nat :=
  if bytesLen t ≤ 3 then t * 2 ^ (8 * (3 - bytesLen t)) else t / 2 ^ (8 * (bytesLen t - 3))

/-- Encoding rule of the specification for a non-negative target. -/
def specEncode (t : Nat) : Nat :=
  if t = 0 then 0
  else if specMantissa t &&& 0x00800000 = 0 then (bytesLen t <<< 24) ||| specMantissa t
  else ((bytesLen t + 1) <<< 24) ||| (specMantissa t >>> 8)

/-! ### Work and cuckoo difficulty (`diff.go`) -/

/-- Modelled from the spec: the proof-of-work types.  The declaration of
`PowType` and of the constant `BLAKE2BD` is not part of the sources at hand; the
specification lists the closed enumeration hash-based, cuckaroo, cuckaroom,
cuckatoo, and `BLAKE2BD` is the hash-based one. -/
inductive PowType where
  | BLAKE2BD
  | CUCKAROO
  | CUCKAROOM
  | CUCKATOO
  deriving DecidableEq

/-- `(*big.Int).Div`: Euclidean division, which panics on a zero divisor;
`none` stands for the panic. -/
def bigDiv (x y : Int) : Option Int :=
  if y = 0 then none else some (x / y)

/-- Package variable `OneLsh256`: 1 shifted left 256 bits. -/
def OneLsh256 : Int :=
  Lsh 1 256

/-- `CalcWork` of diff.go. -/
def CalcWork (bits : Nat) (powType : PowType) : Option Int :=
  let difficultyNum := CompactToBig bits
  if difficultyNum ≤ 0 then some 0
  else if powType ≠ PowType.BLAKE2BD then
    let allDiff : Int := Lsh 1 64
    let allDiff := allDiff * 1865
    bigDiv allDiff difficultyNum
  else
    let denominator := difficultyNum + 1
    bigDiv OneLsh256 denominator

/-- Modelled from the spec: a `hash.Hash` is an array of 32 bytes (the type is
declared outside the sources at hand); it is given as the list of its bytes. -/
def IsHash (h : List Nat) : Prop :=
  h.length = 32 ∧ ∀ b ∈ h, b < 256

instance (h : List Nat) : Decidable (IsHash h) := by
  unfold IsHash; infer_instance

/-- The assignment `buf[i], buf[j] = buf[j], buf[i]`. -/
def swapAt (buf : List Nat) (i j : Nat) : List Nat :=
  (buf.set i (buf.getD j 0)).set j (buf.getD i 0)

/-- `(*big.Int).SetBytes`: the bytes read as a big-endian unsigned integer. -/
def SetBytes (buf : List Nat) : Int :=
  ((buf.foldl (fun acc b => acc * 256 + b) 0 : Nat) : Int)

/-- `HashToBig` of diff.go: the loop swaps `buf[i]` and `buf[blen-1-i]` for
`i = 0, …, blen/2 - 1` on a copy of the hash. -/
def HashToBig (hash : List Nat) : Int :=
  let blen := hash.length
  let buf := (List.range (blen / 2)).foldl (fun buf i => swapAt buf i (blen - 1 - i)) hash
  SetBytes buf

/-- `CalcCuckooDiff` of diff.go; `scale` is a `uint64`. -/
def CalcCuckooDiff (scale : Nat) (blockHash : List Nat) : Option Int :=
  let c := HashToBig blockHash
  let max := Lsh 1 256
  if c ≤ 0 then some max
  else
    let a : Int := (scale : Int)
    if a ≥ c then some max
    else bigDiv (a * max) c

/-- Little-endian base-256 digits of `n`, by repeated division; `fuel = n`
always suffices. -/
def leBytes : Nat → Nat → List Nat
  | 0, _ => []
  | fuel + 1, n => if n = 0 then [] else (n % 256) :: leBytes fuel (n / 256)

/-- `(*big.Int).Bytes`: the magnitude as big-endian bytes without leading zero
bytes. -/
def Bytes (x : Int) : List Nat :=
  (leBytes x.natAbs x.natAbs).reverse

/-- Little-endian hexadecimal digits of `n`, as characters. -/
def leHex : Nat → Nat → List Char
  | 0, _ => []
  | fuel + 1, n => if n = 0 then [] else Nat.digitChar (n % 16) :: leHex fuel (n / 16)

/-- The verb `%x` of `fmt` on a `*big.Int`: lowercase hexadecimal digits of the
magnitude, `0` for zero, with a minus sign for a negative number. -/
def fmtHexBig (x : Int) : List Char :=
  (if x < 0 then ['-'] else []) ++
    (if x = 0 then ['0'] else (leHex x.natAbs x.natAbs).reverse)

/-- The verb `%x` of `fmt` on a byte slice: two lowercase hexadecimal digits
for each byte. -/
def fmtHexBytes (b : List Nat) : List Char :=
  b.flatMap (fun x => [Nat.digitChar (x / 16), Nat.digitChar (x % 16)])

/-- The verb `%064x` of `fmt` on a byte slice: the digits of `%x`, padded on the
left with `0` to a width of 64. -/
def fmtHexBytes064 (b : List Nat) : List Char :=
  List.replicate (64 - (fmtHexBytes b).length) '0' ++ fmtHexBytes b

/-- `CuckooDiffToTarget` of diff.go; `scale` is a `uint64`. -/
def CuckooDiffToTarget (scale : Nat) (diff : Int) : Option String :=
  let a : Int := (scale : Int)
  let max := Lsh 1 256
  if a ≥ diff then some (String.mk (fmtHexBig (max - 1)))
  else
    (bigDiv (a * max) diff).map (fun q => String.mk (fmtHexBytes064 (Bytes q)))

/-- Value of a hexadecimal digit. -/
def hexDigitVal (c : Char) : Nat :=
  if c.isDigit then c.toNat - 48 else c.toNat - 87

/-- Number denoted by a string of hexadecimal digits. -/
def hexVal (s : List Char) : Nat :=
  s.foldl (fun acc c => 16 * acc + hexDigitVal c) 0

/-- Lowercase hexadecimal digits. -/
def IsLowerHex (c : Char) : Prop :=
  c ∈ ['0', '1', '2', '3', '4', '5', '6', '7', '8', '9', 'a', 'b', 'c', 'd', 'e', 'f']

/-! ### Name resolution of the command line (`cmd/bx/bx.go`) -/

/-- Modelled from the spec: what `getNetWork` and `getCuckooScale` use from the
packages `params` and `pow`, which are not part of the sources at hand: the four
network parameter sets, the field `PowConfig`, and for each cuckoo algorithm the
value of `GraphWeight()` on an instance after `SetMainHeight`, `SetEdgeBits`
(a `uint8`) and `SetParams`. -/
structure Externals (Params Config : Type) where
  TestNetParams : Params
  PrivNetParams : Params
  MainNetParams : Params
  MixNetParams : Params
  PowConfig : Params → Config
  CuckarooGraphWeight : Int → Nat → Config → Nat
  CuckaroomGraphWeight : Int → Nat → Config → Nat
  CuckatooGraphWeight : Int → Nat → Config → Nat

/-- Conversion `int(x)` of a `uint64` on a 64-bit platform. -/
def toInt64 (x : Nat) : Int :=
  if x % 2 ^ 64 < 2 ^ 63 then ((x % 2 ^ 64 : Nat) : Int) else ((x % 2 ^ 64 : Nat) : Int) - 2 ^ 64

/-- Conversion `uint8(x)` of an `int64`. -/
def toUint8 (x : Int) : Nat :=
  (x % 256).toNat

/-- `getNetWork` of bx.go. -/
def getNetWork {Params Config : Type} (ext : Externals Params Config) (network : String) :
    Params :=
  if network = "testnet" then ext.TestNetParams
  else if network = "privnet" then ext.PrivNetParams
  else if network = "mainnet" then ext.MainNetParams
  else if network = "mixnet" then ext.MixNetParams
  else ext.TestNetParams

/-- `getCuckooScale` of bx.go.  The case `"cuckatoo"` builds a `pow.Cuckaroo`
instance, as the source does. -/
def getCuckooScale {Params Config : Type} (ext : Externals Params Config) (powType : String)
    (p : Params) (edgeBits mheight : Int) : Int :=
  if powType = "cuckaroo" then
    toInt64 (ext.CuckarooGraphWeight mheight (toUint8 edgeBits) (ext.PowConfig p))
  else if powType = "cuckaroom" then
    toInt64 (ext.CuckaroomGraphWeight mheight (toUint8 edgeBits) (ext.PowConfig p))
  else if powType = "cuckatoo" then
    toInt64 (ext.CuckarooGraphWeight mheight (toUint8 edgeBits) (ext.PowConfig p))
  else 0

/-! ### Stake difficulty (`diff.go`) -/

/-- Wrap-around of an integer to the range of `int64`. -/
def wrapInt64 (x : Int) : Int :=
  (x + 2 ^ 63) % 2 ^ 64 - 2 ^ 63

/-- `(*big.Int).Int64`: the low 64 bits of the magnitude converted to `int64`,
negated when the number is negative. -/
def bigInt64 (x : Int) : Int :=
  if x < 0 then wrapInt64 (-toInt64 x.natAbs) else toInt64 x.natAbs

/-- `mergeDifficulty` of diff.go, on `int64` arguments given as integers.  The
three calls of `Div` are made in the order of the source. -/
def mergeDifficulty (oldDiff newDiff1 newDiff2 : Int) : Option Int :=
  let newDiff1Big := newDiff1
  let newDiff2Big := Lsh newDiff2 32
  let oldDiffBig := oldDiff
  let oldDiffBigLSH := Lsh oldDiffBig 32
  (bigDiv oldDiffBigLSH newDiff1Big).bind fun newDiff1Big =>
    (bigDiv newDiff2Big oldDiffBig).bind fun newDiff2Big =>
      let summedChange := Lsh newDiff2Big 32
      (bigDiv summedChange newDiff1Big).bind fun summedChange =>
        let summedChange := summedChange * oldDiffBig
        let summedChange := Rsh summedChange 32
        some (bigInt64 summedChange)

/-! ### The command `target-to-compact` (`cmd/bx/bx.go`) -/

/-- The package-level variables of bx.go that the options `-pow` of
`target-to-compact` and `compact-to-target` are bound to. -/
structure FlagVars where
  mode : String
  powtype : String
  deriving DecidableEq

/-- The variables before `main` runs: Go zero values. -/
def initialVars : FlagVars :=
  { mode := "", powtype := "" }

/-- Registration of the two options in `main`:
`targetToCompactCmd.StringVar(&mode, "pow", "hash", …)` and
`compactToTargetCmd.StringVar(&powtype, "pow", "hash", …)`.  `StringVar` stores
the default value in the variable it is given. -/
def registerFlags (g : FlagVars) : FlagVars :=
  let g := { g with mode := "hash" }
  { g with powtype := "hash" }

/-- `targetToCompactCmd.Parse` on arguments that set `-pow` to `v`: the value is
stored in the variable bound at registration, `mode`. -/
def parseTargetToCompact (g : FlagVars) (v : String) : FlagVars :=
  { g with mode := v }

/-- Handler of `target-to-compact` in `main`, for a target argument `a` taken
from the command line or from standard input: the arguments of the call
`bx.TargetToCompact(a, powtype)`. -/
def targetToCompactHandler (g : FlagVars) (a : String) : String × String :=
  (a, g.powtype)

/-- A run of `bx target-to-compact -pow v a`: registration, parsing, handler. -/
def runTargetToCompact (v a : String) : String × String :=
  targetToCompactHandler (parseTargetToCompact (registerFlags initialVars) v) a

/-- A concrete instance of the external parts, with distinct values, on which
the definitions can be evaluated. -/
def sampleExternals : Externals Nat Nat where
  TestNetParams := 1
  PrivNetParams := 2
  MainNetParams := 3
  MixNetParams := 4
  PowConfig := fun p => p + 10
  CuckarooGraphWeight := fun h e c => 1000 + h.toNat + e + c
  CuckaroomGraphWeight := fun h e c => 2000 + h.toNat + e + c
  CuckatooGraphWeight := fun h e c => 3000 + h.toNat + e + c

/-! ## Helper lemmas -/


/-! ### Digit counts -/

theorem digitCount_bounds (b : Nat) (hb : 2 ≤ b) :
    ∀ fuel n, 0 < n → n ≤ fuel →
      ∃ k, digitCount b fuel n = k + 1 ∧ b ^ k ≤ n ∧ n < b ^ (k + 1) := by
  intro fuel
  induction fuel with
  | zero => intro n h0 h1; omega
  | succ fuel ih =>
    intro n h0 h1
    have hne : n ≠ 0 := by omega
    by_cases hq : n / b = 0
    · refine ⟨0, ?_, by simpa using h0, ?_⟩
      · cases fuel with
        | zero => simp [digitCount, hne]
        | succ f => simp [digitCount, hne, hq]
      · have hlt : n < b := (Nat.div_eq_zero_iff (by omega)).mp hq
        simpa using hlt
    · have hqpos : 0 < n / b := Nat.pos_of_ne_zero hq
      have hqlt : n / b < n := Nat.div_lt_self h0 (by omega)
      obtain ⟨k, hk, hlo, hhi⟩ := ih (n / b) hqpos (by omega)
      refine ⟨k + 1, ?_, ?_, ?_⟩
      · simp [digitCount, hne, hk]
      · calc b ^ (k + 1) = b ^ k * b := by rw [pow_succ]
          _ ≤ n / b * b := Nat.mul_le_mul_right b hlo
          _ ≤ n := Nat.div_mul_le_self n b
      · have h2 : n < (n / b + 1) * b := by
          have := Nat.lt_succ_iff.mpr (le_refl (n / b))
          exact (Nat.div_lt_iff_lt_mul (by omega)).mp this
        calc n < (n / b + 1) * b := h2
          _ ≤ b ^ (k + 1) * b := Nat.mul_le_mul_right b hhi
          _ = b ^ (k + 1 + 1) := by rw [← pow_succ]

theorem digitCount_unique (b : Nat) (hb : 2 ≤ b) (n k : Nat)
    (hlo : b ^ k ≤ n) (hhi : n < b ^ (k + 1)) : digitCount b n n = k + 1 := by
  have h0 : 0 < n := lt_of_lt_of_le (Nat.pow_pos (by omega)) hlo
  obtain ⟨j, hj, hjlo, hjhi⟩ := digitCount_bounds b hb n n h0 le_rfl
  have h1 : k < j + 1 := (Nat.pow_lt_pow_iff_right (by omega)).mp (lt_of_le_of_lt hlo hjhi)
  have h2 : j < k + 1 := (Nat.pow_lt_pow_iff_right (by omega)).mp (lt_of_le_of_lt hjlo hhi)
  rw [hj]; omega

theorem bytesLen_zero : bytesLen 0 = 0 := by decide

theorem bytesLen_bounds (n : Nat) (h0 : 0 < n) :
    ∃ k, bytesLen n = k + 1 ∧ 256 ^ k ≤ n ∧ n < 256 ^ (k + 1) :=
  digitCount_bounds 256 (by omega) n n h0 le_rfl

theorem bytesLen_unique (n k : Nat) (hlo : 256 ^ k ≤ n) (hhi : n < 256 ^ (k + 1)) :
    bytesLen n = k + 1 :=
  digitCount_unique 256 (by omega) n k hlo hhi

theorem bitLen_bounds (n : Nat) (h0 : 0 < n) :
    ∃ k, bitLen n = k + 1 ∧ 2 ^ k ≤ n ∧ n < 2 ^ (k + 1) :=
  digitCount_bounds 2 (by omega) n n h0 le_rfl

/-! ### Bit-level facts -/

theorem and_two_pow_ne_zero (x i : Nat) : (x &&& 2 ^ i != 0) = x.testBit i := by
  cases hx : x.testBit i with
  | false =>
    have : x &&& 2 ^ i = 0 := by
      apply Nat.eq_of_testBit_eq
      intro j
      simp only [Nat.testBit_and, Nat.testBit_two_pow, Nat.zero_testBit]
      by_cases hij : i = j
      · subst hij; simp [hx]
      · simp [hij]
    simp [this]
  | true =>
    have : x &&& 2 ^ i ≠ 0 := by
      intro h0
      have := congrArg (fun y => Nat.testBit y i) h0
      simp [Nat.testBit_two_pow, hx] at this
    simpa using this

theorem or_sign_mod (x : Nat) : (x ||| 2 ^ 23) % 2 ^ 23 = x % 2 ^ 23 := by
  apply Nat.eq_of_testBit_eq
  intro j
  simp only [Nat.testBit_mod_two_pow, Nat.testBit_or, Nat.testBit_two_pow]
  by_cases hj : j < 23
  · have : ¬ (23 = j) := by omega
    simp [hj, this]
  · simp [hj]

theorem or_sign_shift (x : Nat) : (x ||| 2 ^ 23) >>> 24 = x >>> 24 := by
  apply Nat.eq_of_testBit_eq
  intro j
  simp only [Nat.testBit_shiftRight, Nat.testBit_or, Nat.testBit_two_pow]
  have : ¬ (23 = 24 + j) := by omega
  simp [this]

theorem or_sign_testBit (x : Nat) : (x ||| 2 ^ 23).testBit 23 = true := by
  rw [Nat.testBit_or, Nat.testBit_two_pow_self, Bool.or_true]



/-! ### Arithmetic form of the two conversions -/

theorem Lsh_natCast (m k : Nat) : Lsh (m : Int) k = ((m * 2 ^ k : Nat) : Int) := by
  have h : ¬ ((m : Int) < 0) := by omega
  simp only [Lsh, h, if_false, Int.natAbs_ofNat, Nat.shiftLeft_eq]

theorem Rsh_natCast (m k : Nat) : Rsh (m : Int) k = ((m / 2 ^ k : Nat) : Int) := by
  have h : ¬ ((m : Int) < 0) := by omega
  simp only [Rsh, h, if_false, Int.natAbs_ofNat, Nat.shiftRight_eq_div_pow]

theorem CompactToBig_eq (c : Nat) :
    CompactToBig c = decodeFields (c >>> 24) (c.testBit 23) (c % 2 ^ 23) := by
  have h1 : (0x007fffff : Nat) = 2 ^ 23 - 1 := by norm_num
  have h2 : (0x00800000 : Nat) = 2 ^ 23 := by norm_num
  unfold CompactToBig decodeFields
  simp only [h1, h2, Nat.and_pow_two_sub_one_eq_mod, and_two_pow_ne_zero, Lsh_natCast,
    Nat.shiftRight_eq_div_pow]
  by_cases he : c / 2 ^ 24 ≤ 3 <;> simp [he]

theorem testBit23_iff (m : Nat) (hm : m < 2 ^ 24) : m.testBit 23 = decide (2 ^ 23 ≤ m) := by
  rw [Nat.testBit_to_div_mod, decide_eq_decide]
  constructor <;> intro h <;> omega

/-- Fields of a packed value `exponent * 2^24 + mantissa` with a clear sign
bit. -/
theorem fields_of_pack (E M : Nat) (hM : M < 2 ^ 23) :
    (2 ^ 24 * E + M) >>> 24 = E ∧ (2 ^ 24 * E + M).testBit 23 = false ∧
      (2 ^ 24 * E + M) % 2 ^ 23 = M := by
  refine ⟨?_, ?_, ?_⟩
  · rw [Nat.shiftRight_eq_div_pow]; omega
  · rw [Nat.testBit_to_div_mod, decide_eq_false_iff_not]; omega
  · omega

theorem CompactToBig_pack (E M : Nat) (hM : M < 2 ^ 23) :
    CompactToBig (2 ^ 24 * E + M) = decodeFields E false M := by
  obtain ⟨h1, h2, h3⟩ := fields_of_pack E M hM
  rw [CompactToBig_eq, h1, h2, h3]

theorem CompactToBig_or_sign (x : Nat) :
    CompactToBig (x ||| 0x00800000) = decodeFields (x >>> 24) true (x % 2 ^ 23) := by
  have h2 : (0x00800000 : Nat) = 2 ^ 23 := by norm_num
  rw [h2, CompactToBig_eq, or_sign_shift, or_sign_testBit, or_sign_mod]

/-- Packing an exponent below 256 and a mantissa below `2^24`. -/
theorem pack_eq (E M : Nat) (hE : E < 256) (hM : M < 2 ^ 24) :
    ((E <<< 24) % 2 ^ 32) ||| M = 2 ^ 24 * E + M := by
  have h : (E <<< 24) % 2 ^ 32 = 2 ^ 24 * E := by
    rw [Nat.shiftLeft_eq]; omega
  rw [h, Nat.mul_add_lt_is_or hM]

theorem rawMantissa_bounds (k t : Nat) (hlo : 256 ^ k ≤ t) (hhi : t < 256 ^ (k + 1)) :
    2 ^ 16 ≤ rawMantissa k t ∧ rawMantissa k t < 2 ^ 24 := by
  unfold rawMantissa
  by_cases hk : k + 1 ≤ 3
  · rw [if_pos hk]
    have hk3 : k = 0 ∨ k = 1 ∨ k = 2 := by omega
    rcases hk3 with rfl | rfl | rfl <;> norm_num at hlo hhi ⊢ <;> omega
  · rw [if_neg hk]
    obtain ⟨j, rfl⟩ : ∃ j, k = j + 3 := ⟨k - 3, by omega⟩
    have e1 : 8 * (j + 3 + 1 - 3) = 8 * (j + 1) := by omega
    have p1 : (256 : Nat) ^ (j + 3) = 2 ^ 16 * 2 ^ (8 * (j + 1)) := by
      rw [show (256 : Nat) = 2 ^ 8 by norm_num, ← pow_mul, ← pow_add]; congr 1; omega
    have p2 : (256 : Nat) ^ (j + 3 + 1) = 2 ^ 24 * 2 ^ (8 * (j + 1)) := by
      rw [show (256 : Nat) = 2 ^ 8 by norm_num, ← pow_mul, ← pow_add]; congr 1; omega
    rw [e1]
    have hp : 0 < 2 ^ (8 * (j + 1)) := Nat.pow_pos (by norm_num)
    constructor
    · rw [Nat.le_div_iff_mul_le hp, ← p1]; exact hlo
    · rw [Nat.div_lt_iff_lt_mul hp, ← p2]; exact hhi

/-- The mantissa computed by `BigToCompact` on a positive number of `k + 1`
bytes: none of the `uint32` truncations loses anything. -/
theorem rawMantissa_eq (t k : Nat) (hlo : 256 ^ k ≤ t) (hhi : t < 256 ^ (k + 1)) :
    (if k + 1 ≤ 3 then ((t % 2 ^ 32) <<< (8 * (3 - (k + 1)))) % 2 ^ 32
      else (Rsh (t : Int) (8 * (k + 1 - 3))).natAbs % 2 ^ 32) = rawMantissa k t := by
  obtain ⟨_, hm2⟩ := rawMantissa_bounds k t hlo hhi
  have hm2' := hm2
  unfold rawMantissa at hm2' ⊢
  by_cases hk3 : k + 1 ≤ 3
  · rw [if_pos hk3] at hm2'
    rw [if_pos hk3, if_pos hk3]
    have h1 : 1 ≤ 2 ^ (8 * (3 - (k + 1))) := Nat.pow_pos (by norm_num)
    have htlt : t < 2 ^ 32 := by
      calc t = t * 1 := by omega
        _ ≤ t * 2 ^ (8 * (3 - (k + 1))) := Nat.mul_le_mul_left t h1
        _ < 2 ^ 32 := by omega
    rw [Nat.mod_eq_of_lt htlt, Nat.shiftLeft_eq, Nat.mod_eq_of_lt (by omega)]
  · rw [if_neg hk3] at hm2'
    rw [if_neg hk3, if_neg hk3]
    rw [Rsh_natCast, Int.natAbs_ofNat, Nat.mod_eq_of_lt (by omega)]

/-- Shape of `BigToCompact` on a positive number of `k + 1` bytes, before the
exponent and the mantissa are packed. -/
theorem BigToCompact_pos_unpacked (t k : Nat) (hlo : 256 ^ k ≤ t) (hhi : t < 256 ^ (k + 1)) :
    BigToCompact (t : Int) =
      if rawMantissa k t < 2 ^ 23 then (((k + 1) <<< 24) % 2 ^ 32) ||| rawMantissa k t
      else (((k + 1 + 1) <<< 24) % 2 ^ 32) ||| (rawMantissa k t >>> 8) := by
  have hb := bytesLen_unique t k hlo hhi
  obtain ⟨hm1, hm2⟩ := rawMantissa_bounds k t hlo hhi
  have hp : 0 < 256 ^ k := Nat.pow_pos (by norm_num : 0 < 256)
  have ht0 : 0 < t := lt_of_lt_of_le hp hlo
  have hne : ¬ ((t : Int) = 0) := by omega
  have hnn : ¬ ((t : Int) < 0) := by omega
  have h2 : (0x00800000 : Nat) = 2 ^ 23 := by norm_num
  have hraw := rawMantissa_eq t k hlo hhi
  unfold BigToCompact
  rw [if_neg hne]
  simp only [Int.natAbs_ofNat, hb, hraw, h2, and_two_pow_ne_zero, hnn, if_false,
    testBit23_iff _ hm2]
  by_cases hr : rawMantissa k t < 2 ^ 23
  · have hr' : ¬ (2 ^ 23 ≤ rawMantissa k t) := by omega
    rw [if_pos hr]
    simp only [hr', decide_False, Bool.false_eq_true, if_false]
  · have hr' : 2 ^ 23 ≤ rawMantissa k t := by omega
    rw [if_neg hr]
    simp only [hr', decide_True, if_true]

theorem BigToCompact_pos_lt (t k : Nat) (hlo : 256 ^ k ≤ t) (hhi : t < 256 ^ (k + 1))
    (hk : k + 1 < 256) (hr : rawMantissa k t < 2 ^ 23) :
    BigToCompact (t : Int) = 2 ^ 24 * (k + 1) + rawMantissa k t := by
  rw [BigToCompact_pos_unpacked t k hlo hhi, if_pos hr]
  exact pack_eq _ _ hk (by omega)

theorem BigToCompact_pos_ge (t k : Nat) (hlo : 256 ^ k ≤ t) (hhi : t < 256 ^ (k + 1))
    (hk : k + 2 < 256) (hr : ¬ rawMantissa k t < 2 ^ 23) :
    BigToCompact (t : Int) = 2 ^ 24 * (k + 2) + rawMantissa k t / 2 ^ 8 := by
  obtain ⟨_, hm2⟩ := rawMantissa_bounds k t hlo hhi
  rw [BigToCompact_pos_unpacked t k hlo hhi, if_neg hr, Nat.shiftRight_eq_div_pow]
  have hd : rawMantissa k t / 2 ^ 8 < 2 ^ 24 := by omega
  have hE : k + 1 + 1 < 256 := by omega
  exact pack_eq _ _ hE hd

theorem pow_split (a b : Nat) (h : b ≤ a) : 2 ^ (8 * a) = 2 ^ (8 * (a - b)) * 2 ^ (8 * b) := by
  rw [← pow_add]; congr 1; omega

/-- Decoding the encoding of a positive number clears its `lostBytes` low
bytes and changes nothing else. -/
theorem roundTrip_pos (t k : Nat) (hlo : 256 ^ k ≤ t) (hhi : t < 256 ^ (k + 1))
    (hk : k + 2 < 256) :
    CompactToBig (BigToCompact (t : Int)) =
      ((t / 2 ^ (8 * lostBytes k t) * 2 ^ (8 * lostBytes k t) : Nat) : Int) := by
  obtain ⟨hm1, hm2⟩ := rawMantissa_bounds k t hlo hhi
  unfold lostBytes
  by_cases hr : rawMantissa k t < 2 ^ 23
  · rw [BigToCompact_pos_lt t k hlo hhi (by omega) hr, CompactToBig_pack _ _ hr, if_pos hr]
    unfold decodeFields rawMantissa
    simp only [Bool.false_eq_true, if_false]
    by_cases hk3 : k + 1 ≤ 3
    · have e0 : k + 1 - 3 = 0 := by omega
      simp only [hk3, if_true, e0, Nat.mul_zero, pow_zero, Nat.div_one, Nat.mul_one]
      rw [Nat.mul_div_cancel _ (Nat.pow_pos (by norm_num))]
    · simp only [hk3, if_false]
  · have hd : rawMantissa k t / 2 ^ 8 < 2 ^ 23 := by omega
    rw [BigToCompact_pos_ge t k hlo hhi hk hr, CompactToBig_pack _ _ hd, if_neg hr]
    unfold decodeFields
    simp only [Bool.false_eq_true, if_false]
    congr 1
    unfold rawMantissa
    by_cases hk3 : k + 2 ≤ 3
    · have e0 : k + 2 - 3 = 0 := by omega
      have hk1 : k + 1 ≤ 3 := by omega
      simp only [hk3, hk1, if_true, e0, Nat.mul_zero, pow_zero, Nat.div_one, Nat.mul_one]
      have e1 : 8 * (3 - (k + 1)) = 8 * (3 - (k + 2)) + 8 := by omega
      rw [e1, pow_add, ← Nat.mul_assoc, Nat.mul_div_cancel _ (by norm_num : 0 < 2 ^ 8),
        Nat.mul_div_cancel _ (Nat.pow_pos (by norm_num))]
    · simp only [hk3, if_false]
      by_cases hk1 : k + 1 ≤ 3
      · have hk2 : k = 2 := by omega
        subst hk2
        norm_num
      · simp only [hk1, if_false]
        have e1 : 8 * (k + 2 - 3) = 8 * (k + 1 - 3) + 8 := by omega
        rw [Nat.div_div_eq_div_mul, ← pow_add, ← e1]



/-! ### Sign handling -/

theorem decodeFields_true (e m : Nat) : decodeFields e true m = -decodeFields e false m := by
  unfold decodeFields
  simp only [if_true, Bool.false_eq_true, if_false]

theorem CompactToBig_or_sign_neg (x : Nat) (hx : x.testBit 23 = false) :
    CompactToBig (x ||| 0x00800000) = -CompactToBig x := by
  rw [CompactToBig_or_sign, decodeFields_true, CompactToBig_eq x, hx]

/-- Bit 23 of the encoding of a positive number is clear, whatever its size. -/
theorem BigToCompact_pos_testBit (t k : Nat) (hlo : 256 ^ k ≤ t) (hhi : t < 256 ^ (k + 1)) :
    (BigToCompact (t : Int)).testBit 23 = false := by
  obtain ⟨_, hm2⟩ := rawMantissa_bounds k t hlo hhi
  rw [BigToCompact_pos_unpacked t k hlo hhi]
  have hE : ∀ E : Nat, ((E <<< 24) % 2 ^ 32).testBit 23 = false := by
    intro E
    rw [Nat.testBit_mod_two_pow, Nat.testBit_shiftLeft]
    simp
  by_cases hr : rawMantissa k t < 2 ^ 23
  · rw [if_pos hr, Nat.testBit_or, hE, Nat.testBit_lt_two_pow hr]; rfl
  · rw [if_neg hr, Nat.testBit_or, hE, Nat.shiftRight_eq_div_pow]
    have hd : rawMantissa k t / 2 ^ 8 < 2 ^ 23 := by omega
    rw [Nat.testBit_lt_two_pow hd]; rfl

/-- On a negative number whose shift loses no bit (always so for at most three
bytes) the encoding is that of the magnitude with the sign bit set. -/
theorem BigToCompact_neg_exact (t k : Nat) (hlo : 256 ^ k ≤ t) (hhi : t < 256 ^ (k + 1))
    (hex : k + 1 ≤ 3 ∨ 2 ^ (8 * (k + 1 - 3)) ∣ t) :
    BigToCompact (-(t : Int)) = BigToCompact (t : Int) ||| 0x00800000 := by
  have hb := bytesLen_unique t k hlo hhi
  have hp : 0 < 256 ^ k := Nat.pow_pos (by norm_num : 0 < 256)
  have ht0 : 0 < t := lt_of_lt_of_le hp hlo
  have hne : ¬ ((t : Int) = 0) := by omega
  have hnn : ¬ ((t : Int) < 0) := by omega
  have hne' : ¬ (-(t : Int) = 0) := by omega
  have hneg : -(t : Int) < 0 := by omega
  have hmant : (if k + 1 ≤ 3 then ((t % 2 ^ 32) <<< (8 * (3 - (k + 1)))) % 2 ^ 32
      else (Rsh (-(t : Int)) (8 * (k + 1 - 3))).natAbs % 2 ^ 32) =
      (if k + 1 ≤ 3 then ((t % 2 ^ 32) <<< (8 * (3 - (k + 1)))) % 2 ^ 32
      else (Rsh (t : Int) (8 * (k + 1 - 3))).natAbs % 2 ^ 32) := by
    by_cases hk3 : k + 1 ≤ 3
    · rw [if_pos hk3, if_pos hk3]
    · rw [if_neg hk3, if_neg hk3]
      rcases hex with h | ⟨q, hq⟩
      · exact absurd h hk3
      · have hP : 0 < 2 ^ (8 * (k + 1 - 3)) := Nat.pow_pos (by norm_num)
        have hq0 : 0 < q := by
          rcases Nat.eq_zero_or_pos q with h | h
          · rw [h, Nat.mul_zero] at hq; omega
          · exact h
        have h1 : (t - 1) / 2 ^ (8 * (k + 1 - 3)) + 1 = t / 2 ^ (8 * (k + 1 - 3)) := by
          obtain ⟨r, rfl⟩ : ∃ r, q = r + 1 := ⟨q - 1, by omega⟩
          rw [hq, Nat.mul_div_cancel_left _ hP]
          have h5 : 2 ^ (8 * (k + 1 - 3)) * (r + 1) - 1 =
              (2 ^ (8 * (k + 1 - 3)) - 1) + 2 ^ (8 * (k + 1 - 3)) * r := by
            rw [Nat.mul_succ]; omega
          rw [h5, Nat.add_mul_div_left _ _ hP, Nat.div_eq_of_lt (by omega)]
          omega
        simp only [Rsh, hneg, hnn, if_true, if_false, Int.natAbs_neg, Int.natAbs_ofNat,
          Nat.shiftRight_eq_div_pow, h1]
  unfold BigToCompact
  rw [if_neg hne, if_neg hne']
  simp only [Int.natAbs_neg, Int.natAbs_ofNat, hb, hmant, hneg, hnn, if_true, if_false]

/-! ### Round trips -/

theorem lt_pow_bytes (t k j : Nat) (hlo : 256 ^ k ≤ t) (hhi : t < 256 ^ j) : k < j :=
  (Nat.pow_lt_pow_iff_right (by norm_num : 1 < 256)).mp (lt_of_le_of_lt hlo hhi)

theorem roundTrip_pos_small (t : Nat) (ht : t < 2 ^ 23) :
    CompactToBig (BigToCompact (t : Int)) = (t : Int) := by
  rcases Nat.eq_zero_or_pos t with h0 | h0
  · subst h0; decide
  · obtain ⟨k, _, hlo, hhi⟩ := bytesLen_bounds t h0
    have hk : k < 3 := lt_pow_bytes t k 3 hlo (by norm_num; omega)
    rw [roundTrip_pos t k hlo hhi (by omega)]
    have hl : lostBytes k t = 0 := by
      unfold lostBytes
      by_cases hr : rawMantissa k t < 2 ^ 23
      · rw [if_pos hr]; omega
      · rw [if_neg hr]
        have hk2 : k ≠ 2 := by
          intro h2
          subst h2
          simp only [rawMantissa] at hr
          norm_num at hr
          omega
        omega
    rw [hl]; simp


/-! ### What the round trip keeps -/

theorem lostBytes_le (k t : Nat) : lostBytes k t ≤ k := by
  unfold lostBytes
  by_cases hr : rawMantissa k t < 2 ^ 23
  · rw [if_pos hr]; omega
  · rw [if_neg hr]; omega

theorem pow256_eq (k : Nat) : (256 : Nat) ^ k = 2 ^ (8 * k) := by
  rw [show (256 : Nat) = 2 ^ 8 by norm_num, ← pow_mul]

/-- Clearing the `lostBytes` low bytes keeps the number between `256 ^ k` and
itself. -/
theorem trunc_bounds (t k : Nat) (hlo : 256 ^ k ≤ t) :
    256 ^ k ≤ t / 2 ^ (8 * lostBytes k t) * 2 ^ (8 * lostBytes k t) ∧
      t / 2 ^ (8 * lostBytes k t) * 2 ^ (8 * lostBytes k t) ≤ t := by
  have hj := lostBytes_le k t
  have hP : 0 < 2 ^ (8 * lostBytes k t) := Nat.pow_pos (by norm_num)
  refine ⟨?_, Nat.div_mul_le_self _ _⟩
  have hsplit := pow_split k (lostBytes k t) hj
  rw [pow256_eq] at hlo ⊢
  rw [hsplit] at hlo ⊢
  exact Nat.mul_le_mul_right _ ((Nat.le_div_iff_mul_le hP).mpr hlo)

/-- A mantissa that needs renormalisation comes from a number whose top byte
has its high bit set. -/
theorem le_of_rawMantissa_ge (t k : Nat) (hr : ¬ rawMantissa k t < 2 ^ 23) :
    2 ^ (8 * k + 7) ≤ t := by
  unfold rawMantissa at hr
  by_cases hk3 : k + 1 ≤ 3
  · rw [if_pos hk3] at hr
    have hk : k = 0 ∨ k = 1 ∨ k = 2 := by omega
    rcases hk with rfl | rfl | rfl <;> norm_num at hr ⊢ <;> omega
  · rw [if_neg hk3] at hr
    have hP : 0 < 2 ^ (8 * (k + 1 - 3)) := Nat.pow_pos (by norm_num)
    have h1 : 2 ^ 23 ≤ t / 2 ^ (8 * (k + 1 - 3)) := by omega
    have h2 := (Nat.le_div_iff_mul_le hP).mp h1
    have e1 : 8 * k + 7 = 23 + 8 * (k + 1 - 3) := by omega
    rw [e1, pow_add]; exact h2

theorem div_trunc (t a b : Nat) (hab : a ≤ b) : t / 2 ^ a * 2 ^ a / 2 ^ b = t / 2 ^ b := by
  have hP : 0 < 2 ^ a := Nat.pow_pos (by norm_num)
  have e : 2 ^ b = 2 ^ a * 2 ^ (b - a) := by rw [← pow_add]; congr 1; omega
  rw [e, ← Nat.div_div_eq_div_mul, ← Nat.div_div_eq_div_mul, Nat.mul_div_cancel _ hP]

/-- The cleared bits all lie below the 16 most significant bits. -/
theorem lostBits_le (t k l : Nat) (hlo : 256 ^ k ≤ t) (hl : t < 2 ^ (l + 1)) :
    8 * lostBytes k t ≤ l + 1 - 16 := by
  have h1 : 8 * k < l + 1 := by
    rw [pow256_eq] at hlo
    exact (Nat.pow_lt_pow_iff_right (by norm_num : 1 < 2)).mp (lt_of_le_of_lt hlo hl)
  unfold lostBytes
  by_cases hr : rawMantissa k t < 2 ^ 23
  · rw [if_pos hr]; omega
  · rw [if_neg hr]
    have h2 := le_of_rawMantissa_ge t k hr
    have h3 : 8 * k + 7 < l + 1 :=
      (Nat.pow_lt_pow_iff_right (by norm_num : 1 < 2)).mp (lt_of_le_of_lt h2 hl)
    omega

/-- The encoding of any integer fits a `uint32`. -/
theorem BigToCompact_lt (n : Int) : BigToCompact n < 2 ^ 32 := by
  unfold BigToCompact
  by_cases h0 : n = 0
  · rw [if_pos h0]; norm_num
  · rw [if_neg h0]
    simp only []
    have hmod : ∀ x : Nat, x % 2 ^ 32 < 2 ^ 32 := fun x => Nat.mod_lt _ (by norm_num)
    have hshift : ∀ x : Nat, x < 2 ^ 32 → x >>> 8 < 2 ^ 32 := by
      intro x hx
      rw [Nat.shiftRight_eq_div_pow]
      exact lt_of_le_of_lt (Nat.div_le_self _ _) hx
    have hmant : ∀ (b : Bool) (x : Nat), x < 2 ^ 32 → (if b = true then x >>> 8 else x) < 2 ^ 32 := by
      intro b x hx
      cases b
      · simpa using hx
      · simpa using hshift x hx
    have hraw : (if bytesLen n.natAbs ≤ 3 then
          ((n.natAbs % 2 ^ 32) <<< (8 * (3 - bytesLen n.natAbs))) % 2 ^ 32
        else (Rsh n (8 * (bytesLen n.natAbs - 3))).natAbs % 2 ^ 32) < 2 ^ 32 := by
      split <;> exact hmod _
    split
    · refine Nat.or_lt_two_pow (Nat.or_lt_two_pow (hmod _) ?_) (by norm_num)
      exact hmant _ _ hraw
    · refine Nat.or_lt_two_pow (hmod _) ?_
      exact hmant _ _ hraw

theorem bit23_ne_zero_iff (x : Nat) : x &&& 0x00800000 ≠ 0 ↔ x.testBit 23 = true := by
  have h2 : (0x00800000 : Nat) = 2 ^ 23 := by norm_num
  rw [h2, ← and_two_pow_ne_zero]
  simp

/-- Bit 23 of the encoding of a negative number is set. -/
theorem BigToCompact_neg_testBit (n : Int) (hn : n < 0) :
    (BigToCompact n).testBit 23 = true := by
  have h0 : ¬ (n = 0) := by omega
  have h2 : (0x00800000 : Nat) = 2 ^ 23 := by norm_num
  unfold BigToCompact
  rw [if_neg h0]
  simp only [hn, if_true, h2]
  exact or_sign_testBit _


/-! ### Canonical compact values -/

theorem pack_or_sign (E M : Nat) (hM : M < 2 ^ 23) :
    (2 ^ 24 * E + M) ||| 0x00800000 = 2 ^ 24 * E + 2 ^ 23 + M := by
  have h2 : (0x00800000 : Nat) = 2 ^ 23 * 1 := by norm_num
  have hM' : M < 2 ^ 24 := by omega
  have hS : 2 ^ 23 * 1 + M < 2 ^ 24 := by omega
  rw [Nat.mul_add_lt_is_or hM', Nat.or_assoc, h2, Nat.or_comm M, ← Nat.mul_add_lt_is_or hM 1,
    ← Nat.mul_add_lt_is_or hS E]
  omega

/-- Magnitude decoded from the fields of a canonical compact value: its byte
count `k + 1`, and the mantissa that encoding it computes. -/
theorem canonical_magnitude (e m : Nat) (hm1 : 2 ^ 15 ≤ m) (hm2 : m < 2 ^ 23)
    (hc : 3 ≤ e ∨ (1 ≤ e ∧ m % 2 ^ (8 * (3 - e)) = 0)) :
    ∃ k, 256 ^ k ≤ (if e ≤ 3 then m / 2 ^ (8 * (3 - e)) else m * 2 ^ (8 * (e - 3))) ∧
      (if e ≤ 3 then m / 2 ^ (8 * (3 - e)) else m * 2 ^ (8 * (e - 3))) < 256 ^ (k + 1) ∧
      ((k + 1 = e ∧
          rawMantissa k (if e ≤ 3 then m / 2 ^ (8 * (3 - e)) else m * 2 ^ (8 * (e - 3))) = m) ∨
        (k + 2 = e ∧
          rawMantissa k (if e ≤ 3 then m / 2 ^ (8 * (3 - e)) else m * 2 ^ (8 * (e - 3)))
            = m * 2 ^ 8)) ∧
      (k + 1 ≤ 3 ∨
        2 ^ (8 * (k + 1 - 3)) ∣ (if e ≤ 3 then m / 2 ^ (8 * (3 - e)) else m * 2 ^ (8 * (e - 3)))) := by
  by_cases he : e ≤ 3
  · rw [if_pos he]
    have he3 : e = 1 ∨ e = 2 ∨ e = 3 := by omega
    rcases he3 with rfl | rfl | rfl
    · have hdiv : m % 2 ^ (8 * (3 - 1)) = 0 := by
        rcases hc with h | ⟨_, h⟩
        · omega
        · exact h
      norm_num at hdiv
      refine ⟨0, ?_, ?_, Or.inl ⟨rfl, ?_⟩, Or.inl (by omega)⟩
      · norm_num; omega
      · norm_num; omega
      · simp only [rawMantissa]; norm_num; omega
    · have hdiv : m % 2 ^ (8 * (3 - 2)) = 0 := by
        rcases hc with h | ⟨_, h⟩
        · omega
        · exact h
      norm_num at hdiv
      by_cases h16 : 2 ^ 16 ≤ m
      · refine ⟨1, ?_, ?_, Or.inl ⟨rfl, ?_⟩, Or.inl (by omega)⟩
        · norm_num; omega
        · norm_num; omega
        · simp only [rawMantissa]; norm_num; omega
      · refine ⟨0, ?_, ?_, Or.inr ⟨rfl, ?_⟩, Or.inl (by omega)⟩
        · norm_num; omega
        · norm_num; omega
        · simp only [rawMantissa]; norm_num; omega
    · by_cases h16 : 2 ^ 16 ≤ m
      · refine ⟨2, ?_, ?_, Or.inl ⟨rfl, ?_⟩, Or.inl (by omega)⟩
        · norm_num; omega
        · norm_num; omega
        · simp only [rawMantissa]; norm_num
      · refine ⟨1, ?_, ?_, Or.inr ⟨rfl, ?_⟩, Or.inl (by omega)⟩
        · norm_num; omega
        · norm_num; omega
        · simp only [rawMantissa]; norm_num
  · rw [if_neg he]
    obtain ⟨j, rfl⟩ : ∃ j, e = j + 4 := ⟨e - 4, by omega⟩
    have e1 : 8 * (j + 4 - 3) = 8 * (j + 1) := by omega
    rw [e1]
    have hP : 0 < 2 ^ (8 * (j + 1)) := Nat.pow_pos (by norm_num)
    have p2 : (256 : Nat) ^ (j + 2) = 2 ^ 8 * 2 ^ (8 * (j + 1)) := by
      rw [pow256_eq, ← pow_add]; congr 1; omega
    have p3 : (256 : Nat) ^ (j + 3) = 2 ^ 16 * 2 ^ (8 * (j + 1)) := by
      rw [pow256_eq, ← pow_add]; congr 1; omega
    have p4 : (256 : Nat) ^ (j + 4) = 2 ^ 24 * 2 ^ (8 * (j + 1)) := by
      rw [pow256_eq, ← pow_add]; congr 1; omega
    by_cases h16 : 2 ^ 16 ≤ m
    · refine ⟨j + 3, ?_, ?_, Or.inl ⟨rfl, ?_⟩, Or.inr ?_⟩
      · rw [p3]; exact Nat.mul_le_mul_right _ h16
      · rw [p4]; exact Nat.mul_lt_mul_of_pos_right (by omega) hP
      · unfold rawMantissa
        have e2 : 8 * (j + 3 + 1 - 3) = 8 * (j + 1) := by omega
        rw [if_neg (by omega), e2, Nat.mul_div_cancel _ hP]
      · have e2 : 8 * (j + 3 + 1 - 3) = 8 * (j + 1) := by omega
        rw [e2]; exact Dvd.intro_left m rfl
    · refine ⟨j + 2, ?_, ?_, Or.inr ⟨rfl, ?_⟩, ?_⟩
      · rw [p2]; exact Nat.mul_le_mul_right _ (by omega)
      · rw [p3]; exact Nat.mul_lt_mul_of_pos_right (by omega) hP
      · unfold rawMantissa
        have e3 : 8 * (j + 1) = 8 + 8 * j := by omega
        by_cases hj : j + 2 + 1 ≤ 3
        · have hj0 : j = 0 := by omega
          subst hj0
          norm_num
        · have e2 : 8 * (j + 2 + 1 - 3) = 8 * j := by omega
          rw [if_neg hj, e2, e3, pow_add, ← Nat.mul_assoc,
            Nat.mul_div_cancel _ (Nat.pow_pos (by norm_num))]
      · by_cases hj : j + 2 + 1 ≤ 3
        · exact Or.inl hj
        · right
          have e2 : 8 * (j + 2 + 1 - 3) = 8 * j := by omega
          have e3 : 8 * (j + 1) = 8 * j + 8 := by omega
          rw [e2, e3, pow_add, ← Nat.mul_assoc, Nat.mul_comm (m * 2 ^ (8 * j))]
          rw [Nat.mul_comm m, Nat.mul_left_comm]
          exact Dvd.intro _ rfl

/-- Encoding the magnitude decoded from canonical fields gives the fields
back, with either sign. -/
theorem encode_canonical (e m : Nat) (he : e < 256) (hm1 : 2 ^ 15 ≤ m) (hm2 : m < 2 ^ 23)
    (hc : 3 ≤ e ∨ (1 ≤ e ∧ m % 2 ^ (8 * (3 - e)) = 0)) :
    BigToCompact (decodeFields e false m) = 2 ^ 24 * e + m ∧
      BigToCompact (decodeFields e true m) = 2 ^ 24 * e + 2 ^ 23 + m := by
  obtain ⟨k, hlo, hhi, hraw, hex⟩ := canonical_magnitude e m hm1 hm2 hc
  have hpos : BigToCompact (decodeFields e false m) = 2 ^ 24 * e + m := by
    unfold decodeFields
    simp only [Bool.false_eq_true, if_false]
    rcases hraw with ⟨hk, hr⟩ | ⟨hk, hr⟩
    · rw [BigToCompact_pos_lt _ k hlo hhi (by omega) (by omega), hr, hk]
    · rw [BigToCompact_pos_ge _ k hlo hhi (by omega) (by omega), hr, hk,
        Nat.mul_div_cancel _ (by norm_num : 0 < 2 ^ 8)]
  refine ⟨hpos, ?_⟩
  rw [decodeFields_true]
  unfold decodeFields at hpos ⊢
  simp only [Bool.false_eq_true, if_false] at hpos ⊢
  rw [BigToCompact_neg_exact _ k hlo hhi hex, hpos, pack_or_sign _ _ hm2]

/-- The encoding of a positive number has canonical fields. -/
theorem BigToCompact_pos_canonical (t k : Nat) (hlo : 256 ^ k ≤ t) (hhi : t < 256 ^ (k + 1))
    (hk : k + 2 < 256 ∨ (k + 1 < 256 ∧ rawMantissa k t < 2 ^ 23)) :
    ∃ E M, BigToCompact (t : Int) = 2 ^ 24 * E + M ∧ 2 ^ 15 ≤ M ∧ M < 2 ^ 23 ∧
      (3 ≤ E ∨ (1 ≤ E ∧ M % 2 ^ (8 * (3 - E)) = 0)) := by
  obtain ⟨hm1, hm2⟩ := rawMantissa_bounds k t hlo hhi
  by_cases hr : rawMantissa k t < 2 ^ 23
  · refine ⟨k + 1, rawMantissa k t, ?_, by omega, hr, ?_⟩
    · exact BigToCompact_pos_lt t k hlo hhi (by omega) hr
    · by_cases hk3 : 3 ≤ k + 1
      · exact Or.inl hk3
      · right
        refine ⟨by omega, ?_⟩
        unfold rawMantissa
        rw [if_pos (by omega)]
        exact Nat.mul_mod_left _ _
  · have hk2 : k + 2 < 256 := by
      rcases hk with h | ⟨_, h⟩
      · exact h
      · exact absurd h hr
    refine ⟨k + 2, rawMantissa k t / 2 ^ 8, ?_, by omega, by omega, ?_⟩
    · exact BigToCompact_pos_ge t k hlo hhi hk2 hr
    · by_cases hk3 : 3 ≤ k + 2
      · exact Or.inl hk3
      · right
        have hk0 : k = 0 := by omega
        subst hk0
        refine ⟨by omega, ?_⟩
        simp only [rawMantissa]
        norm_num
        omega

/-- A magnitude decoded from a compact value has at most 23 significant bits:
encoding it cannot overflow the exponent, and the shift is exact. -/
theorem decoded_magnitude_fits (e m t k : Nat) (he : e < 256) (hm : m < 2 ^ 23)
    (ht : t = (if e ≤ 3 then m / 2 ^ (8 * (3 - e)) else m * 2 ^ (8 * (e - 3))))
    (hlo : 256 ^ k ≤ t) :
    (k + 2 < 256 ∨ (k + 1 < 256 ∧ rawMantissa k t < 2 ^ 23)) ∧
      (k + 1 ≤ 3 ∨ 2 ^ (8 * (k + 1 - 3)) ∣ t) := by
  by_cases he3 : e ≤ 3
  · rw [if_pos he3] at ht
    have hlt : t < 256 ^ 3 := by
      have := Nat.div_le_self m (2 ^ (8 * (3 - e)))
      norm_num; omega
    have hk : k < 3 := lt_pow_bytes t k 3 hlo hlt
    exact ⟨Or.inl (by omega), Or.inl (by omega)⟩
  · rw [if_neg he3] at ht
    have hP : 0 < 2 ^ (8 * (e - 3)) := Nat.pow_pos (by norm_num)
    have hlt : t < 256 ^ e := by
      have e1 : (256 : Nat) ^ e = 2 ^ 24 * 2 ^ (8 * (e - 3)) := by
        rw [pow256_eq, ← pow_add]; congr 1; omega
      rw [e1, ht]
      exact Nat.mul_lt_mul_of_pos_right (by omega) hP
    have hk : k < e := lt_pow_bytes t k e hlo hlt
    have hdvd : 2 ^ (8 * (k + 1 - 3)) ∣ t := by
      rw [ht]
      exact Dvd.dvd.mul_left (Nat.pow_dvd_pow 2 (by omega)) m
    refine ⟨?_, Or.inr hdvd⟩
    by_cases hke : k + 1 = e
    · right
      refine ⟨by omega, ?_⟩
      unfold rawMantissa
      rw [if_neg (by omega), hke, ht, Nat.mul_div_cancel _ hP]
      exact hm
    · left; omega

/-- Decoding then encoding returns the compact value exactly when its fields
are canonical. -/
theorem roundTrip_fields_iff (c e m : Nat) (s : Bool) (he : e < 256) (hm : m < 2 ^ 23)
    (hc : c = 2 ^ 24 * e + (if s = true then 2 ^ 23 else 0) + m) :
    BigToCompact (decodeFields e s m) = c ↔
      (c = 0 ∨ (2 ^ 15 ≤ m ∧ (3 ≤ e ∨ (1 ≤ e ∧ m % 2 ^ (8 * (3 - e)) = 0)))) := by
  constructor
  · intro h
    by_cases c0 : c = 0
    · exact Or.inl c0
    · right
      have hmag : ∃ t : Nat, t = (if e ≤ 3 then m / 2 ^ (8 * (3 - e)) else m * 2 ^ (8 * (e - 3))) :=
        ⟨_, rfl⟩
      obtain ⟨t, ht⟩ := hmag
      have hpos : decodeFields e false m = (t : Int) := by
        unfold decodeFields
        simp only [Bool.false_eq_true, if_false, ht]
      have ht0 : 0 < t := by
        rcases Nat.eq_zero_or_pos t with h0 | h0
        · exfalso
          apply c0
          rw [← h]
          cases s
          · rw [hpos, h0]; decide
          · rw [decodeFields_true, hpos, h0]; decide
        · exact h0
      obtain ⟨k, _, hlo, hhi⟩ := bytesLen_bounds t ht0
      obtain ⟨hfit, hex⟩ := decoded_magnitude_fits e m t k he hm ht hlo
      obtain ⟨E, M, hEM, hM1, hM2, hcan⟩ := BigToCompact_pos_canonical t k hlo hhi hfit
      cases s
      · rw [hpos, hEM] at h
        simp only [Bool.false_eq_true, if_false] at hc
        have hE : E = e := by omega
        have hM : M = m := by omega
        subst hE; subst hM
        exact ⟨hM1, hcan⟩
      · rw [decodeFields_true, hpos, BigToCompact_neg_exact t k hlo hhi hex, hEM,
          pack_or_sign _ _ hM2] at h
        simp only [if_true] at hc
        have hE : E = e := by omega
        have hM : M = m := by omega
        subst hE; subst hM
        exact ⟨hM1, hcan⟩
  · intro h
    rcases h with c0 | ⟨hm1, hcan⟩
    · have hm0 : m = 0 := by omega
      have he0 : e = 0 := by omega
      have hs : s = false := by
        cases s
        · rfl
        · simp only [if_true] at hc; omega
      rw [c0, hm0, he0, hs]; decide
    · obtain ⟨h1, h2⟩ := encode_canonical e m he hm1 hm hcan
      cases s
      · simp only [Bool.false_eq_true, if_false] at hc
        rw [h1, hc]; omega
      · simp only [if_true] at hc
        rw [h2, hc]


/-! ## The compact codec -/

/-- C1: for every 32-bit compact value `c` with mantissa `m = c & 0x007fffff`,
exponent `e = c >> 24` and sign bit `s = (c & 0x00800000 != 0)`, the magnitude of
`CompactToBig c` is `floor (m / 2^(8*(3-e)))` when `e ≤ 3` and `m * 2^(8*(e-3))`
when `e > 3`; the result is the negation of that magnitude when `s` is set and
the magnitude itself otherwise; in particular `CompactToBig 0 = 0`. -/
theorem CompactToBig_matches_spec (c : Nat) (_hc : c < 2 ^ 32) :
    (CompactToBig c).natAbs = specMagnitude c ∧
      CompactToBig c = (if specSign c then -(specMagnitude c : Int) else (specMagnitude c : Int)) ∧
      CompactToBig 0 = 0 := by
  have h1 : (0x007fffff : Nat) = 2 ^ 23 - 1 := by norm_num
  have h2 : (0x00800000 : Nat) = 2 ^ 23 := by norm_num
  have hm : decodeFields (c >>> 24) false (c % 2 ^ 23) = (specMagnitude c : Int) := by
    unfold decodeFields specMagnitude
    simp only [Bool.false_eq_true, if_false, h1, Nat.and_pow_two_sub_one_eq_mod]
  have hs : specSign c = c.testBit 23 := by
    unfold specSign; rw [h2, and_two_pow_ne_zero]
  have hmain : CompactToBig c =
      (if specSign c then -(specMagnitude c : Int) else (specMagnitude c : Int)) := by
    rw [CompactToBig_eq, hs]
    cases hb : c.testBit 23
    · rw [hm]; simp
    · rw [decodeFields_true, hm]; simp
  refine ⟨?_, hmain, by decide⟩
  rw [hmain]
  by_cases h : specSign c = true
  · rw [if_pos h, Int.natAbs_neg, Int.natAbs_ofNat]
  · rw [if_neg h, Int.natAbs_ofNat]

theorem CompactToBig_matches_spec_witness :
    (0x1d00ffff : Nat) < 2 ^ 32 ∧
      ((CompactToBig 0x1d00ffff).natAbs = specMagnitude 0x1d00ffff ∧
        CompactToBig 0x1d00ffff =
          (if specSign 0x1d00ffff then -(specMagnitude 0x1d00ffff : Int)
            else (specMagnitude 0x1d00ffff : Int)) ∧
        CompactToBig 0 = 0) :=
  ⟨by decide, CompactToBig_matches_spec 0x1d00ffff (by decide)⟩

/-- C2: for every target `t` with `0 ≤ t < 2^256`, `BigToCompact t` is `0`
when `t = 0`; otherwise, with `e` the number of bytes of `t` and
`m = t * 2^(8*(3-e))` if `e ≤ 3`, else `floor (t / 2^(8*(e-3)))`, it is
`(e << 24) | m` when `m & 0x00800000 = 0` and `((e+1) << 24) | (m >> 8)`
otherwise. -/
theorem BigToCompact_matches_spec (t : Nat) (ht : t < 2 ^ 256) :
    BigToCompact (t : Int) = specEncode t := by
  have h2 : (0x00800000 : Nat) = 2 ^ 23 := by norm_num
  rcases Nat.eq_zero_or_pos t with h0 | h0
  · subst h0; decide
  · obtain ⟨k, hb, hlo, hhi⟩ := bytesLen_bounds t h0
    have hk : k < 32 := lt_pow_bytes t k 32 hlo (by norm_num at ht ⊢; omega)
    obtain ⟨hm1, hm2⟩ := rawMantissa_bounds k t hlo hhi
    have hsm : specMantissa t = rawMantissa k t := by
      unfold specMantissa rawMantissa; rw [hb]
    have hbit : (rawMantissa k t &&& 2 ^ 23 = 0) ↔ rawMantissa k t < 2 ^ 23 := by
      have h := and_two_pow_ne_zero (rawMantissa k t) 23
      rw [testBit23_iff _ hm2] at h
      by_cases hr : rawMantissa k t < 2 ^ 23
      · have : ¬ (2 ^ 23 ≤ rawMantissa k t) := by omega
        simp only [this, decide_False] at h
        simp only [hr, iff_true]
        simpa using h
      · have : 2 ^ 23 ≤ rawMantissa k t := by omega
        simp only [this, decide_True] at h
        simp only [hr, iff_false]
        simpa using h
    unfold specEncode
    rw [if_neg (by omega), hsm, hb, h2]
    rw [BigToCompact_pos_unpacked t k hlo hhi]
    have hE : ∀ E : Nat, E < 256 → (E <<< 24) % 2 ^ 32 = E <<< 24 := by
      intro E hE
      rw [Nat.shiftLeft_eq]
      exact Nat.mod_eq_of_lt (by omega)
    by_cases hr : rawMantissa k t < 2 ^ 23
    · rw [if_pos hr, if_pos (hbit.mpr hr), hE _ (by omega)]
    · rw [if_neg hr, if_neg (fun h => hr (hbit.mp h)), hE _ (by omega)]

theorem BigToCompact_matches_spec_witness :
    (0x12345678 : Nat) < 2 ^ 256 ∧ BigToCompact ((0x12345678 : Nat) : Int) = specEncode 0x12345678 :=
  ⟨by decide, BigToCompact_matches_spec 0x12345678 (by decide)⟩

/-- C3: for every integer `n` with `|n| ≤ 2^23 - 1`, positive, zero or
negative, `CompactToBig (BigToCompact n) = n`. -/
theorem roundTrip_of_natAbs_le (n : Int) (hn : n.natAbs ≤ 2 ^ 23 - 1) :
    CompactToBig (BigToCompact n) = n := by
  obtain ⟨t, rfl | rfl⟩ := Int.eq_nat_or_neg n
  · exact roundTrip_pos_small t (by simp at hn; omega)
  · have ht : t < 2 ^ 23 := by simp at hn; omega
    rcases Nat.eq_zero_or_pos t with h0 | h0
    · subst h0; decide
    · obtain ⟨k, _, hlo, hhi⟩ := bytesLen_bounds t h0
      have hk : k < 3 := lt_pow_bytes t k 3 hlo (by norm_num; omega)
      rw [BigToCompact_neg_exact t k hlo hhi (Or.inl (by omega)),
        CompactToBig_or_sign_neg _ (BigToCompact_pos_testBit t k hlo hhi),
        roundTrip_pos_small t ht]

theorem roundTrip_of_natAbs_le_witness :
    (-8388607 : Int).natAbs ≤ 2 ^ 23 - 1 ∧ CompactToBig (BigToCompact (-8388607)) = -8388607 :=
  ⟨by decide, roundTrip_of_natAbs_le (-8388607) (by decide)⟩


/-- C4, as stated, fails: `0x04000001` (exponent 4, mantissa 1) decodes to
256, whose encoding is `0x02010000`; `0x01000000` (exponent 1, mantissa 0) and
`0x00800000` (negative zero) decode to 0, whose encoding is 0. -/
theorem roundTrip_compact_fails :
    (0x04000001 : Nat) < 2 ^ 32 ∧ BigToCompact (CompactToBig 0x04000001) = 0x02010000 ∧
      BigToCompact (CompactToBig 0x04000001) ≠ 0x04000001 ∧
      BigToCompact (CompactToBig 0x01000000) ≠ 0x01000000 ∧
      BigToCompact (CompactToBig 0x00800000) ≠ 0x00800000 := by
  decide

/-- C4, amended: for every 32-bit compact value `c` with mantissa
`m = c & 0x007fffff` and exponent `e = c >> 24`,
`BigToCompact (CompactToBig c) = c` holds exactly when `c` is canonical: `c = 0`,
or `m ≥ 0x008000` and either `e ≥ 3`, or `e` is 1 or 2 and the low `8*(3-e)`
bits of `m` are zero. -/
theorem roundTrip_compact_iff (c : Nat) (hc : c < 2 ^ 32) :
    BigToCompact (CompactToBig c) = c ↔
      (c = 0 ∨ (0x008000 ≤ c &&& 0x007fffff ∧
        (3 ≤ c >>> 24 ∨
          (1 ≤ c >>> 24 ∧ (c &&& 0x007fffff) % 2 ^ (8 * (3 - (c >>> 24))) = 0)))) := by
  have h1 : (0x007fffff : Nat) = 2 ^ 23 - 1 := by norm_num
  have h15 : (0x008000 : Nat) = 2 ^ 15 := by norm_num
  rw [h1, h15, Nat.and_pow_two_sub_one_eq_mod, CompactToBig_eq]
  have he : c >>> 24 < 256 := by
    rw [Nat.shiftRight_eq_div_pow]; omega
  have hm : c % 2 ^ 23 < 2 ^ 23 := Nat.mod_lt _ (by norm_num)
  have hdec : c = 2 ^ 24 * (c >>> 24) + (if c.testBit 23 = true then 2 ^ 23 else 0)
      + c % 2 ^ 23 := by
    rw [Nat.shiftRight_eq_div_pow, Nat.testBit_to_div_mod]
    by_cases hb : c / 2 ^ 23 % 2 = 1
    · simp only [hb, decide_True, if_true]; omega
    · simp only [hb, decide_False, Bool.false_eq_true, if_false]; omega
  exact roundTrip_fields_iff c (c >>> 24) (c % 2 ^ 23) (c.testBit 23) he hm hdec

theorem roundTrip_compact_iff_witness :
    (0x1d00ffff : Nat) < 2 ^ 32 ∧
      (BigToCompact (CompactToBig 0x1d00ffff) = 0x1d00ffff ↔
        ((0x1d00ffff : Nat) = 0 ∨ (0x008000 ≤ 0x1d00ffff &&& 0x007fffff ∧
          (3 ≤ 0x1d00ffff >>> 24 ∨
            (1 ≤ 0x1d00ffff >>> 24 ∧
              (0x1d00ffff &&& 0x007fffff) % 2 ^ (8 * (3 - (0x1d00ffff >>> 24))) = 0))))) :=
  ⟨by decide, roundTrip_compact_iff 0x1d00ffff (by decide)⟩

/-- C5: for every positive target `t < 2^256`, the decoded encoding
`d = CompactToBig (BigToCompact t)` satisfies `0 < d ≤ t` and needs exactly as
many bytes as `t`. -/
theorem roundTrip_same_bytes (t : Nat) (h0 : 0 < t) (ht : t < 2 ^ 256) :
    0 < CompactToBig (BigToCompact (t : Int)) ∧
      CompactToBig (BigToCompact (t : Int)) ≤ (t : Int) ∧
      bytesLen (CompactToBig (BigToCompact (t : Int))).natAbs = bytesLen t := by
  obtain ⟨k, hb, hlo, hhi⟩ := bytesLen_bounds t h0
  have hk : k < 32 := lt_pow_bytes t k 32 hlo (by norm_num at ht ⊢; omega)
  obtain ⟨hd1, hd2⟩ := trunc_bounds t k hlo
  have hp : 0 < 256 ^ k := Nat.pow_pos (by norm_num : 0 < 256)
  rw [roundTrip_pos t k hlo hhi (by omega), Int.natAbs_ofNat, hb]
  refine ⟨?_, ?_, ?_⟩
  · exact Int.ofNat_lt.mpr (lt_of_lt_of_le hp hd1)
  · exact Int.ofNat_le.mpr hd2
  · exact bytesLen_unique _ k hd1 (lt_of_le_of_lt hd2 hhi)

theorem roundTrip_same_bytes_witness :
    (0 : Nat) < 0x12345678 ∧ (0x12345678 : Nat) < 2 ^ 256 ∧
      (0 < CompactToBig (BigToCompact ((0x12345678 : Nat) : Int)) ∧
        CompactToBig (BigToCompact ((0x12345678 : Nat) : Int)) ≤ ((0x12345678 : Nat) : Int) ∧
        bytesLen (CompactToBig (BigToCompact ((0x12345678 : Nat) : Int))).natAbs =
          bytesLen 0x12345678) :=
  ⟨by decide, by decide, roundTrip_same_bytes 0x12345678 (by decide) (by decide)⟩

/-- C6, as stated, fails at `t = 0xffffff` (bit length 24): the mantissa
`0xffffff` has bit 23 set, is renormalised to `0xffff`, and the decoded value
`0xffff00` differs from `t` within the 23 most significant bits. -/
theorem roundTrip_top23_fails :
    (0 : Nat) < 0xffffff ∧ (0xffffff : Nat) < 2 ^ 256 ∧ 23 < bitLen 0xffffff ∧
      CompactToBig (BigToCompact ((0xffffff : Nat) : Int)) / 2 ^ (bitLen 0xffffff - 23) ≠
        ((0xffffff : Nat) : Int) / 2 ^ (bitLen 0xffffff - 23) := by
  decide

/-- C6, amended: for every positive target `t < 2^256` of bit length `L > 23`,
the decoded encoding agrees with `t` on its 16 most significant bits:
`floor (CompactToBig (BigToCompact t) / 2^(L-16)) = floor (t / 2^(L-16))`. -/
theorem roundTrip_top16 (t : Nat) (h0 : 0 < t) (ht : t < 2 ^ 256) (_hL : 23 < bitLen t) :
    CompactToBig (BigToCompact (t : Int)) / 2 ^ (bitLen t - 16) =
      (t : Int) / 2 ^ (bitLen t - 16) := by
  obtain ⟨k, _, hlo, hhi⟩ := bytesLen_bounds t h0
  have hk : k < 32 := lt_pow_bytes t k 32 hlo (by norm_num at ht ⊢; omega)
  obtain ⟨l, hl, _, hlhi⟩ := bitLen_bounds t h0
  have hle := lostBits_le t k l hlo hlhi
  rw [roundTrip_pos t k hlo hhi (by omega), hl]
  have h := div_trunc t (8 * lostBytes k t) (l + 1 - 16) hle
  exact_mod_cast h

theorem roundTrip_top16_witness :
    (0 : Nat) < 0xffffff ∧ (0xffffff : Nat) < 2 ^ 256 ∧ 23 < bitLen 0xffffff ∧
      CompactToBig (BigToCompact ((0xffffff : Nat) : Int)) / 2 ^ (bitLen 0xffffff - 16) =
        ((0xffffff : Nat) : Int) / 2 ^ (bitLen 0xffffff - 16) :=
  ⟨by decide, by decide, by decide,
    roundTrip_top16 0xffffff (by decide) (by decide) (by decide)⟩

/-- C7: for every `k` with `0 ≤ k ≤ 28`,
`BigToCompact (0x00800000 * 256^k) = ((k+4) << 24) | 0x008000`. -/
theorem BigToCompact_renormalises (k : Nat) (hk : k ≤ 28) :
    BigToCompact ((0x00800000 * 256 ^ k : Nat) : Int) = ((k + 4) <<< 24) ||| 0x008000 := by
  have h : ∀ i : Fin 29,
      BigToCompact ((0x00800000 * 256 ^ i.val : Nat) : Int) = ((i.val + 4) <<< 24) ||| 0x008000 := by
    decide
  exact h ⟨k, by omega⟩

theorem BigToCompact_renormalises_witness :
    (28 : Nat) ≤ 28 ∧
      BigToCompact ((0x00800000 * 256 ^ 28 : Nat) : Int) = ((28 + 4) <<< 24) ||| 0x008000 :=
  ⟨by decide, BigToCompact_renormalises 28 (by decide)⟩

/-- C8, at the input `n = -16777217 = -(2^24 + 1)`: the code returns
`0x04810001`, whereas the encoding of the magnitude with the sign bit set is
`0x04810000`. -/
theorem BigToCompact_negative_rounds_up :
    BigToCompact (-16777217) = 0x04810001 ∧
      BigToCompact 16777217 ||| 0x00800000 = 0x04810000 := by
  decide

/-- C9: for every integer `n`, bit 23 (`0x00800000`) of `BigToCompact n` is set
if and only if `n < 0`; hence for `n ≥ 0` the decoded encoding is not
negative. -/
theorem BigToCompact_sign_bit (n : Int) :
    (BigToCompact n &&& 0x00800000 ≠ 0 ↔ n < 0) ∧
      (0 ≤ n → 0 ≤ CompactToBig (BigToCompact n)) := by
  have hbit : (BigToCompact n).testBit 23 = true ↔ n < 0 := by
    rcases lt_trichotomy n 0 with hn | hn | hn
    · simp only [BigToCompact_neg_testBit n hn, hn]
    · subst hn; decide
    · obtain ⟨t, rfl⟩ := Int.eq_ofNat_of_zero_le (le_of_lt hn)
      have h0 : 0 < t := by omega
      obtain ⟨k, _, hlo, hhi⟩ := bytesLen_bounds t h0
      rw [BigToCompact_pos_testBit t k hlo hhi]
      have : ¬ ((t : Int) < 0) := by omega
      simp [this]
  refine ⟨(bit23_ne_zero_iff _).trans hbit, ?_⟩
  intro hn
  have hf : (BigToCompact n).testBit 23 = false := by
    cases hb : (BigToCompact n).testBit 23
    · rfl
    · have := hbit.mp hb; omega
  rw [CompactToBig_eq, hf]
  unfold decodeFields
  simp only [Bool.false_eq_true, if_false]
  exact Int.ofNat_nonneg _

theorem BigToCompact_sign_bit_witness :
    (0 : Int) ≤ 0x800000 ∧ 0 ≤ CompactToBig (BigToCompact 0x800000) :=
  ⟨by decide, (BigToCompact_sign_bit 0x800000).2 (by decide)⟩

/-- C10, as stated, fails: `CompactToBig 0x1d00ffff` is not the literal
`0x00ffff00…00` of 64 hexadecimal digits, which is `0xffff * 2^232`. -/
theorem CompactToBig_genesis_literal_fails :
    CompactToBig 0x1d00ffff ≠
      0x00ffff0000000000000000000000000000000000000000000000000000000000 := by
  decide

/-- C10, amended: `CompactToBig 0x1d00ffff` is
`0x00000000ffff0000000000000000000000000000000000000000000000000000`, that is
`0xffff * 2^208`. -/
theorem CompactToBig_genesis :
    CompactToBig 0x1d00ffff =
      0x00000000ffff0000000000000000000000000000000000000000000000000000 := by
  decide


/-! ## Work -/

theorem Lsh_one (k : Nat) : Lsh 1 k = ((2 ^ k : Nat) : Int) := by
  have h := Lsh_natCast 1 k
  rw [Nat.one_mul] at h
  exact_mod_cast h

theorem bigDiv_of_pos (x y : Int) (hy : 0 < y) : bigDiv x y = some (x / y) := by
  unfold bigDiv
  rw [if_neg (by omega)]

/-- `CalcWork` on a positive target, for the hash-based type. -/
theorem CalcWork_hash (bits : Nat) (h : 0 < CompactToBig bits) :
    CalcWork bits PowType.BLAKE2BD = some (2 ^ 256 / (CompactToBig bits + 1)) := by
  unfold CalcWork
  simp only [OneLsh256, Lsh_one]
  rw [if_neg (by omega), if_neg (by simp), bigDiv_of_pos _ _ (by omega)]
  norm_num

/-- `CalcWork` on a positive target, for the other types. -/
theorem CalcWork_cuckoo (bits : Nat) (p : PowType) (hp : p ≠ PowType.BLAKE2BD)
    (h : 0 < CompactToBig bits) :
    CalcWork bits p = some (1865 * 2 ^ 64 / CompactToBig bits) := by
  unfold CalcWork
  simp only [Lsh_one]
  rw [if_neg (by omega), if_pos hp, bigDiv_of_pos _ _ h]
  norm_num

/-- C11: for every compact value `bits` and every proof-of-work type `p`, if
`CompactToBig bits ≤ 0` then `CalcWork bits p` is 0. -/
theorem CalcWork_of_nonpos (bits : Nat) (p : PowType) (h : CompactToBig bits ≤ 0) :
    CalcWork bits p = some 0 := by
  unfold CalcWork
  simp only []
  rw [if_pos h]

theorem CalcWork_of_nonpos_witness :
    CompactToBig 0x01810000 ≤ 0 ∧ CalcWork 0x01810000 PowType.CUCKAROO = some 0 :=
  ⟨by decide, CalcWork_of_nonpos 0x01810000 PowType.CUCKAROO (by decide)⟩

/-- C12: for every compact value `bits` whose decoded target
`t = CompactToBig bits` is positive, `CalcWork bits p = floor (1865 * 2^64 / t)`
for every type `p` other than `BLAKE2BD`, and
`CalcWork bits BLAKE2BD = floor (2^256 / (t + 1))`, as quotients of unbounded
integers. -/
theorem CalcWork_of_pos (bits : Nat) (p : PowType) (h : 0 < CompactToBig bits) :
    (p ≠ PowType.BLAKE2BD → CalcWork bits p = some (1865 * 2 ^ 64 / CompactToBig bits)) ∧
      CalcWork bits PowType.BLAKE2BD = some (2 ^ 256 / (CompactToBig bits + 1)) :=
  ⟨fun hp => CalcWork_cuckoo bits p hp h, CalcWork_hash bits h⟩

theorem CalcWork_of_pos_witness :
    0 < CompactToBig 0x1d00ffff ∧
      ((PowType.CUCKATOO ≠ PowType.BLAKE2BD →
          CalcWork 0x1d00ffff PowType.CUCKATOO = some (1865 * 2 ^ 64 / CompactToBig 0x1d00ffff)) ∧
        CalcWork 0x1d00ffff PowType.BLAKE2BD = some (2 ^ 256 / (CompactToBig 0x1d00ffff + 1))) :=
  ⟨by decide, CalcWork_of_pos 0x1d00ffff PowType.CUCKATOO (by decide)⟩

theorem ediv_le_ediv_left (N a b : Int) (hN : 0 ≤ N) (ha : 0 < a) (hab : a ≤ b) :
    N / b ≤ N / a := by
  have hb : 0 < b := by omega
  have h0 : 0 ≤ N / b := Int.ediv_nonneg hN (by omega)
  have h1 : N / b * b ≤ N := Int.ediv_mul_le N (by omega)
  have h2 : N / b * a ≤ N / b * b := Int.mul_le_mul_of_nonneg_left hab h0
  exact (Int.le_ediv_iff_mul_le ha).mpr (le_trans h2 h1)

theorem ediv_lt_ediv_of_gap (N a b : Int) (ha : 0 < a) (hab : a < b)
    (hgap : a * b ≤ N * (b - a)) : N / b < N / a := by
  have hb : 0 < b := by omega
  have h1 : N / b * b ≤ N := Int.ediv_mul_le N (by omega)
  have h2 : (N / b + 1) * a ≤ N := by
    have h3 : (N / b + 1) * a * b ≤ N * b := by nlinarith
    exact le_of_mul_le_mul_right h3 hb
  have h4 := (Int.le_ediv_iff_mul_le ha).mpr h2
  omega

/-- C13, as stated, fails: `0x207ffffe` and `0x207fffff` decode to the positive
targets `0x7ffffe * 2^232 < 0x7fffff * 2^232`, and the hash-based work of both
is 2. -/
theorem CalcWork_hash_not_strict :
    0 < CompactToBig 0x207ffffe ∧ CompactToBig 0x207ffffe < CompactToBig 0x207fffff ∧
      CalcWork 0x207ffffe PowType.BLAKE2BD = some 2 ∧
      CalcWork 0x207fffff PowType.BLAKE2BD = some 2 := by
  decide

/-- C13, amended: for all compact values `c1`, `c2` with
`0 < CompactToBig c1 < CompactToBig c2`, the hash-based work of `c1` is at least
that of `c2`, and it is strictly greater whenever the targets are far enough
apart for the quotients to differ,
`(T1 + 1) * (T2 + 1) ≤ 2^256 * (T2 - T1)`. -/
theorem CalcWork_hash_antitone (c1 c2 : Nat) (h1 : 0 < CompactToBig c1)
    (h2 : CompactToBig c1 < CompactToBig c2) :
    ∃ w1 w2, CalcWork c1 PowType.BLAKE2BD = some w1 ∧ CalcWork c2 PowType.BLAKE2BD = some w2 ∧
      w2 ≤ w1 ∧
      ((CompactToBig c1 + 1) * (CompactToBig c2 + 1)
          ≤ 2 ^ 256 * (CompactToBig c2 - CompactToBig c1) → w2 < w1) := by
  refine ⟨_, _, CalcWork_hash c1 h1, CalcWork_hash c2 (by omega), ?_, ?_⟩
  · exact ediv_le_ediv_left _ _ _ (by positivity) (by omega) (by omega)
  · intro hgap
    apply ediv_lt_ediv_of_gap _ _ _ (by omega) (by omega)
    have e : CompactToBig c2 + 1 - (CompactToBig c1 + 1) = CompactToBig c2 - CompactToBig c1 := by
      omega
    rw [e]; exact hgap

theorem CalcWork_hash_antitone_witness :
    0 < CompactToBig 0x1c00ffff ∧ CompactToBig 0x1c00ffff < CompactToBig 0x1d00ffff ∧
      ∃ w1 w2, CalcWork 0x1c00ffff PowType.BLAKE2BD = some w1 ∧
        CalcWork 0x1d00ffff PowType.BLAKE2BD = some w2 ∧ w2 ≤ w1 ∧
        ((CompactToBig 0x1c00ffff + 1) * (CompactToBig 0x1d00ffff + 1)
            ≤ 2 ^ 256 * (CompactToBig 0x1d00ffff - CompactToBig 0x1c00ffff) → w2 < w1) :=
  ⟨by decide, by decide, CalcWork_hash_antitone 0x1c00ffff 0x1d00ffff (by decide) (by decide)⟩

/-- C14: for every proof-of-work type `p` and all compact values `c1`, `c2`
with `0 < CompactToBig c1 ≤ CompactToBig c2`, the work of `c1` is at least the
work of `c2`, which is at least 0. -/
theorem CalcWork_antitone (p : PowType) (c1 c2 : Nat) (h1 : 0 < CompactToBig c1)
    (h2 : CompactToBig c1 ≤ CompactToBig c2) :
    ∃ w1 w2, CalcWork c1 p = some w1 ∧ CalcWork c2 p = some w2 ∧ w2 ≤ w1 ∧ 0 ≤ w2 := by
  by_cases hp : p = PowType.BLAKE2BD
  · subst hp
    refine ⟨_, _, CalcWork_hash c1 h1, CalcWork_hash c2 (by omega), ?_, ?_⟩
    · exact ediv_le_ediv_left _ _ _ (by positivity) (by omega) (by omega)
    · exact Int.ediv_nonneg (by positivity) (by omega)
  · refine ⟨_, _, CalcWork_cuckoo c1 p hp h1, CalcWork_cuckoo c2 p hp (by omega), ?_, ?_⟩
    · exact ediv_le_ediv_left _ _ _ (by positivity) h1 h2
    · exact Int.ediv_nonneg (by positivity) (by omega)

theorem CalcWork_antitone_witness :
    0 < CompactToBig 0x1c00ffff ∧ CompactToBig 0x1c00ffff ≤ CompactToBig 0x1d00ffff ∧
      ∃ w1 w2, CalcWork 0x1c00ffff PowType.CUCKAROOM = some w1 ∧
        CalcWork 0x1d00ffff PowType.CUCKAROOM = some w2 ∧ w2 ≤ w1 ∧ 0 ≤ w2 :=
  ⟨by decide, by decide,
    CalcWork_antitone PowType.CUCKAROOM 0x1c00ffff 0x1d00ffff (by decide) (by decide)⟩


/-! ## Hashes as integers -/

theorem some_getD (buf : List Nat) (j : Nat) (hj : j < buf.length) :
    some (buf.getD j 0) = buf[j]? := by
  rw [List.getD_eq_getElem?_getD, List.getElem?_eq_getElem hj]; rfl

theorem swapAt_length (buf : List Nat) (i j : Nat) : (swapAt buf i j).length = buf.length := by
  unfold swapAt; rw [List.length_set, List.length_set]

theorem swapAt_getElem? (buf : List Nat) (i j x : Nat) (hi : i < buf.length)
    (hj : j < buf.length) :
    (swapAt buf i j)[x]? = if x = j then buf[i]? else if x = i then buf[j]? else buf[x]? := by
  unfold swapAt
  rw [List.getElem?_set, List.getElem?_set, List.length_set]
  by_cases hxj : j = x
  · have hxj' : x = j := hxj.symm
    rw [if_pos hxj, if_pos hj, if_pos hxj', some_getD buf i hi]
  · have hxj' : ¬ x = j := fun h => hxj h.symm
    rw [if_neg hxj, if_neg hxj']
    by_cases hxi : i = x
    · have hxi' : x = i := hxi.symm
      rw [if_pos hxi, if_pos hi, if_pos hxi', some_getD buf j hj]
    · have hxi' : ¬ x = i := fun h => hxi h.symm
      rw [if_neg hxi, if_neg hxi']

/-- State of the buffer after the first `k` iterations of the loop of
`HashToBig`: the `k` outermost positions on each side are exchanged. -/
theorem swapLoop_invariant (h : List Nat) (k : Nat) (hk : k ≤ h.length / 2) :
    ((List.range k).foldl (fun buf i => swapAt buf i (h.length - 1 - i)) h).length = h.length ∧
      ∀ x, ((List.range k).foldl (fun buf i => swapAt buf i (h.length - 1 - i)) h)[x]? =
        if x < k ∨ (h.length - k ≤ x ∧ x < h.length) then h[h.length - 1 - x]? else h[x]? := by
  induction k with
  | zero =>
    refine ⟨rfl, fun x => ?_⟩
    have : ¬ (x < 0 ∨ (h.length - 0 ≤ x ∧ x < h.length)) := by omega
    rw [if_neg this]; rfl
  | succ k ih =>
    obtain ⟨hlen, hget⟩ := ih (by omega)
    rw [List.range_succ, List.foldl_append]
    simp only [List.foldl_cons, List.foldl_nil]
    refine ⟨by rw [swapAt_length, hlen], fun x => ?_⟩
    rw [swapAt_getElem? _ _ _ _ (by omega) (by omega), hget, hget, hget]
    by_cases hx1 : x = h.length - 1 - k
    · subst hx1
      rw [if_pos rfl]
      have c1 : ¬ (k < k ∨ (h.length - k ≤ k ∧ k < h.length)) := by omega
      have c2 : h.length - 1 - k < k + 1 ∨
          (h.length - (k + 1) ≤ h.length - 1 - k ∧ h.length - 1 - k < h.length) := by omega
      rw [if_neg c1, if_pos c2]
      congr 1; omega
    · rw [if_neg hx1]
      by_cases hx2 : x = k
      · subst hx2
        rw [if_pos rfl]
        have c1 : ¬ (h.length - 1 - x < x ∨
            (h.length - x ≤ h.length - 1 - x ∧ h.length - 1 - x < h.length)) := by omega
        have c2 : x < x + 1 ∨ (h.length - (x + 1) ≤ x ∧ x < h.length) := by omega
        rw [if_neg c1, if_pos c2]
      · rw [if_neg hx2]
        by_cases c : x < k ∨ (h.length - k ≤ x ∧ x < h.length)
        · have c' : x < k + 1 ∨ (h.length - (k + 1) ≤ x ∧ x < h.length) := by omega
          rw [if_pos c, if_pos c']
        · have c' : ¬ (x < k + 1 ∨ (h.length - (k + 1) ≤ x ∧ x < h.length)) := by omega
          rw [if_neg c, if_neg c']

/-- The loop of `HashToBig` reverses the buffer. -/
theorem swapLoop_eq_reverse (h : List Nat) :
    (List.range (h.length / 2)).foldl (fun buf i => swapAt buf i (h.length - 1 - i)) h
      = h.reverse := by
  obtain ⟨hlen, hget⟩ := swapLoop_invariant h (h.length / 2) le_rfl
  apply List.ext_getElem?
  intro x
  rw [hget]
  by_cases hx : x < h.length
  · rw [List.getElem?_reverse hx]
    by_cases c : x < h.length / 2 ∨ (h.length - h.length / 2 ≤ x ∧ x < h.length)
    · rw [if_pos c]
    · rw [if_neg c]
      congr 1; omega
  · have c : ¬ (x < h.length / 2 ∨ (h.length - h.length / 2 ≤ x ∧ x < h.length)) := by omega
    rw [if_neg c, List.getElem?_eq_none (by omega),
      List.getElem?_eq_none (by rw [List.length_reverse]; omega)]

/-- Little-endian value of a list of bytes. -/
theorem HashToBig_eq_foldr (h : List Nat) :
    HashToBig h = ((h.foldr (fun b acc => acc * 256 + b) 0 : Nat) : Int) := by
  unfold HashToBig SetBytes
  simp only []
  rw [swapLoop_eq_reverse, List.foldl_reverse]

theorem foldr_eq_sum (h : List Nat) :
    h.foldr (fun b acc => acc * 256 + b) 0 =
      ∑ i in Finset.range h.length, h.getD i 0 * 256 ^ i := by
  induction h with
  | nil => simp
  | cons a t ih =>
    rw [List.foldr_cons, List.length_cons, Finset.sum_range_succ', ih, Finset.sum_mul]
    simp only [List.getD_cons_succ, List.getD_cons_zero, pow_zero, Nat.mul_one]
    congr 1
    apply Finset.sum_congr rfl
    intro i _
    rw [pow_succ, Nat.mul_assoc]

theorem foldr_lt (h : List Nat) (hb : ∀ b ∈ h, b < 256) :
    h.foldr (fun b acc => acc * 256 + b) 0 < 256 ^ h.length := by
  induction h with
  | nil => simp
  | cons a t ih =>
    have h1 := ih (fun b hbt => hb b (List.mem_cons_of_mem a hbt))
    have h2 := hb a (List.mem_cons_self a t)
    rw [List.foldr_cons, List.length_cons, pow_succ]
    have h3 : 0 < 256 ^ t.length := Nat.pow_pos (by norm_num)
    omega

/-- C15: for every 32-byte hash `h`, `HashToBig h` is the little-endian value of
its bytes, the sum over `i` in `0..31` of `h[i] * 256^i`, so
`0 ≤ HashToBig h < 2^256`. -/
theorem HashToBig_little_endian (h : List Nat) (hh : IsHash h) :
    HashToBig h = ∑ i in Finset.range 32, (h.getD i 0 : Int) * 256 ^ i ∧
      0 ≤ HashToBig h ∧ HashToBig h < 2 ^ 256 := by
  obtain ⟨hlen, hb⟩ := hh
  rw [HashToBig_eq_foldr]
  refine ⟨?_, Int.ofNat_nonneg _, ?_⟩
  · rw [foldr_eq_sum, hlen]
    push_cast
    rfl
  · have h1 := foldr_lt h hb
    rw [hlen] at h1
    have h2 : (256 : Nat) ^ 32 = 2 ^ 256 := by norm_num
    rw [h2] at h1
    exact_mod_cast h1

theorem HashToBig_little_endian_witness :
    IsHash (List.range 32) ∧
      (HashToBig (List.range 32) =
          ∑ i in Finset.range 32, ((List.range 32).getD i 0 : Int) * 256 ^ i ∧
        0 ≤ HashToBig (List.range 32) ∧ HashToBig (List.range 32) < 2 ^ 256) :=
  ⟨by decide, HashToBig_little_endian (List.range 32) (by decide)⟩

/-! ## Cuckoo difficulty -/

theorem HashToBig_nonneg (h : List Nat) : 0 ≤ HashToBig h := by
  rw [HashToBig_eq_foldr]; exact Int.ofNat_nonneg _

/-- C16: for every 64-bit `scale` and every 32-byte hash `h` with
`c = HashToBig h`, `CalcCuckooDiff scale h` is `2^256` when `c ≤ 0` or
`scale ≥ c`, and `floor (scale * 2^256 / c)` otherwise. -/
theorem CalcCuckooDiff_value (scale : Nat) (h : List Nat) (_hs : scale < 2 ^ 64)
    (_hh : IsHash h) :
    CalcCuckooDiff scale h =
      some (if HashToBig h ≤ 0 ∨ (scale : Int) ≥ HashToBig h then 2 ^ 256
        else (scale : Int) * 2 ^ 256 / HashToBig h) := by
  unfold CalcCuckooDiff
  simp only [Lsh_one]
  by_cases h0 : HashToBig h ≤ 0
  · rw [if_pos h0, if_pos (Or.inl h0)]; norm_num
  · rw [if_neg h0]
    by_cases h1 : (scale : Int) ≥ HashToBig h
    · rw [if_pos h1, if_pos (Or.inr h1)]; norm_num
    · rw [if_neg h1, if_neg (by tauto), bigDiv_of_pos _ _ (by omega)]
      norm_num

theorem CalcCuckooDiff_value_witness :
    (48 : Nat) < 2 ^ 64 ∧ IsHash (List.range 32) ∧
      CalcCuckooDiff 48 (List.range 32) =
        some (if HashToBig (List.range 32) ≤ 0 ∨ ((48 : Nat) : Int) ≥ HashToBig (List.range 32)
          then 2 ^ 256 else ((48 : Nat) : Int) * 2 ^ 256 / HashToBig (List.range 32)) :=
  ⟨by decide, by decide, CalcCuckooDiff_value 48 (List.range 32) (by decide) (by decide)⟩


/-! ## Rendering a target -/

theorem leBytes_length (fuel n : Nat) : (leBytes fuel n).length = digitCount 256 fuel n := by
  induction fuel generalizing n with
  | zero => rfl
  | succ f ih =>
    unfold leBytes digitCount
    by_cases h0 : n = 0
    · rw [if_pos h0, if_pos h0]; rfl
    · rw [if_neg h0, if_neg h0, List.length_cons, ih]

theorem leBytes_value (fuel n : Nat) (hn : n ≤ fuel) :
    (leBytes fuel n).foldr (fun b acc => acc * 256 + b) 0 = n := by
  induction fuel generalizing n with
  | zero =>
    have : n = 0 := by omega
    subst this; rfl
  | succ f ih =>
    unfold leBytes
    by_cases h0 : n = 0
    · rw [if_pos h0, h0]; rfl
    · rw [if_neg h0, List.foldr_cons, ih (n / 256) (by omega)]
      omega

theorem leBytes_lt (fuel n : Nat) : ∀ b ∈ leBytes fuel n, b < 256 := by
  induction fuel generalizing n with
  | zero => intro b hb; simp [leBytes] at hb
  | succ f ih =>
    intro b hb
    unfold leBytes at hb
    by_cases h0 : n = 0
    · rw [if_pos h0] at hb; simp at hb
    · rw [if_neg h0] at hb
      rcases List.mem_cons.mp hb with h | h
      · rw [h]; exact Nat.mod_lt _ (by norm_num)
      · exact ih _ b h

theorem hexDigitVal_digitChar (d : Nat) (hd : d < 16) : hexDigitVal (Nat.digitChar d) = d := by
  have h : ∀ i : Fin 16, hexDigitVal (Nat.digitChar i.val) = i.val := by decide
  exact h ⟨d, hd⟩

theorem isLowerHex_digitChar (d : Nat) (hd : d < 16) : IsLowerHex (Nat.digitChar d) := by
  have h : ∀ i : Fin 16, Nat.digitChar i.val ∈
      ['0', '1', '2', '3', '4', '5', '6', '7', '8', '9', 'a', 'b', 'c', 'd', 'e', 'f'] := by
    decide
  exact h ⟨d, hd⟩

theorem fmtHexBytes_nil : fmtHexBytes [] = [] := rfl

theorem fmtHexBytes_append (l₁ l₂ : List Nat) :
    fmtHexBytes (l₁ ++ l₂) = fmtHexBytes l₁ ++ fmtHexBytes l₂ := by
  unfold fmtHexBytes
  rw [List.flatMap_append]

theorem fmtHexBytes_singleton (b : Nat) :
    fmtHexBytes [b] = [Nat.digitChar (b / 16), Nat.digitChar (b % 16)] := by
  simp [fmtHexBytes, List.flatMap]

theorem hexVal_append_two (s : List Char) (c₁ c₂ : Char) :
    hexVal (s ++ [c₁, c₂]) = 16 * (16 * hexVal s + hexDigitVal c₁) + hexDigitVal c₂ := by
  unfold hexVal
  rw [List.foldl_append]
  rfl

theorem hexVal_fmtHexBytes_reverse (l : List Nat) (hb : ∀ b ∈ l, b < 256) :
    hexVal (fmtHexBytes l.reverse) = l.foldr (fun b acc => acc * 256 + b) 0 := by
  induction l with
  | nil => rfl
  | cons a t ih =>
    have ha := hb a (List.mem_cons_self a t)
    rw [List.reverse_cons, fmtHexBytes_append, fmtHexBytes_singleton, hexVal_append_two,
      ih (fun b hbt => hb b (List.mem_cons_of_mem a hbt)),
      hexDigitVal_digitChar _ (by omega), hexDigitVal_digitChar _ (by omega), List.foldr_cons]
    omega

theorem fmtHexBytes_length (l : List Nat) : (fmtHexBytes l).length = 2 * l.length := by
  induction l with
  | nil => rfl
  | cons a t ih =>
    have e : a :: t = [a] ++ t := rfl
    rw [e, fmtHexBytes_append, List.length_append, ih, fmtHexBytes_singleton]
    simp only [List.length_cons, List.length_nil, List.length_append]
    omega

theorem fmtHexBytes_lower (l : List Nat) (hb : ∀ b ∈ l, b < 256) :
    ∀ c ∈ fmtHexBytes l, IsLowerHex c := by
  induction l with
  | nil => intro c hc; simp [fmtHexBytes] at hc
  | cons a t ih =>
    intro c hc
    have ha := hb a (List.mem_cons_self a t)
    have e : a :: t = [a] ++ t := rfl
    rw [e, fmtHexBytes_append, fmtHexBytes_singleton] at hc
    rcases List.mem_append.mp hc with h | h
    · rcases List.mem_cons.mp h with h1 | h1
      · rw [h1]; exact isLowerHex_digitChar _ (by omega)
      · rcases List.mem_cons.mp h1 with h2 | h2
        · rw [h2]; exact isLowerHex_digitChar _ (by omega)
        · simp at h2
    · exact ih (fun b hbt => hb b (List.mem_cons_of_mem a hbt)) c h

theorem hexVal_zeros (k : Nat) (s : List Char) : hexVal (List.replicate k '0' ++ s) = hexVal s := by
  unfold hexVal
  rw [List.foldl_append]
  have h : (List.replicate k '0').foldl (fun acc c => 16 * acc + hexDigitVal c) 0 = 0 := by
    induction k with
    | zero => rfl
    | succ k ih => rw [List.replicate_succ, List.foldl_cons]; exact ih
  rw [h]

/-- The bytes of a number below `2^256`, rendered by `%064x`: 64 lowercase
hexadecimal digits that denote the number. -/
theorem fmtHexBytes064_Bytes (q : Int) (h0 : 0 ≤ q) (hq : q < 2 ^ 256) :
    (fmtHexBytes064 (Bytes q)).length = 64 ∧ (∀ c ∈ fmtHexBytes064 (Bytes q), IsLowerHex c) ∧
      (hexVal (fmtHexBytes064 (Bytes q)) : Int) = q := by
  obtain ⟨n, rfl⟩ := Int.eq_ofNat_of_zero_le h0
  have hn : n < 2 ^ 256 := by exact_mod_cast hq
  have hlen : (Bytes (n : Int)).length ≤ 32 := by
    unfold Bytes
    rw [List.length_reverse, Int.natAbs_ofNat, leBytes_length]
    rcases Nat.eq_zero_or_pos n with hz | hpos
    · subst hz; decide
    · obtain ⟨k, hk, hlo, _⟩ := bytesLen_bounds n hpos
      have hk32 : k < 32 := lt_pow_bytes n k 32 hlo (by norm_num at hn ⊢; omega)
      unfold bytesLen at hk
      omega
  have hbytes : ∀ b ∈ Bytes (n : Int), b < 256 := by
    intro b hb
    unfold Bytes at hb
    exact leBytes_lt _ _ b (List.mem_reverse.mp hb)
  have hl := fmtHexBytes_length (Bytes (n : Int))
  unfold fmtHexBytes064
  refine ⟨?_, ?_, ?_⟩
  · rw [List.length_append, List.length_replicate]; omega
  · intro c hc
    rcases List.mem_append.mp hc with h | h
    · rw [(List.mem_replicate.mp h).2]
      exact isLowerHex_digitChar 0 (by omega)
    · exact fmtHexBytes_lower _ hbytes c h
  · rw [hexVal_zeros]
    unfold Bytes
    rw [hexVal_fmtHexBytes_reverse _ (leBytes_lt _ _), Int.natAbs_ofNat,
      leBytes_value n n le_rfl]


/-- `CuckooDiffToTarget` outside the boundary case: 64 lowercase hexadecimal
digits that denote `floor (scale * 2^256 / diff)`. -/
theorem CuckooDiffToTarget_of_lt (scale : Nat) (diff : Int) (h : (scale : Int) < diff) :
    ∃ s, CuckooDiffToTarget scale diff = some s ∧ s.length = 64 ∧
      (∀ c ∈ s.data, IsLowerHex c) ∧ (hexVal s.data : Int) = (scale : Int) * 2 ^ 256 / diff := by
  have hd : 0 < diff := by omega
  have hN : (0 : Int) < 2 ^ 256 := by positivity
  have hq0 : 0 ≤ (scale : Int) * 2 ^ 256 / diff := Int.ediv_nonneg (Int.mul_nonneg (Int.ofNat_nonneg _) (Int.le_of_lt hN)) (Int.le_of_lt hd)
  have hq1 : (scale : Int) * 2 ^ 256 / diff < 2 ^ 256 := by
    rw [Int.ediv_lt_iff_lt_mul hd]
    calc (scale : Int) * 2 ^ 256 = 2 ^ 256 * scale := Int.mul_comm _ _
      _ < 2 ^ 256 * diff := Int.mul_lt_mul_of_pos_left h hN
  have hcode : CuckooDiffToTarget scale diff =
      some (String.mk (fmtHexBytes064 (Bytes ((scale : Int) * 2 ^ 256 / diff)))) := by
    unfold CuckooDiffToTarget
    simp only [Lsh_one]
    rw [if_neg (Int.not_le.mpr h), bigDiv_of_pos _ _ hd]
    norm_num
  generalize (scale : Int) * 2 ^ 256 / diff = q at hq0 hq1 hcode ⊢
  obtain ⟨h1, h2, h3⟩ := fmtHexBytes064_Bytes q hq0 hq1
  exact ⟨_, hcode, h1, h2, h3⟩


set_option maxRecDepth 8192 in
theorem fmtHexBig_max : fmtHexBig (Lsh 1 256 - 1) = List.replicate 64 'f' := by
  decide

set_option maxRecDepth 8192 in
theorem hexVal_max : hexVal (List.replicate 64 'f') = 2 ^ 256 - 1 := by
  decide

/-- C17: for every 64-bit `scale` and every integer `diff`: when
`scale ≥ diff`, `CuckooDiffToTarget scale diff` is the hexadecimal rendering of
`2^256 - 1`, 64 digits `f`; otherwise it is exactly 64 lowercase hexadecimal
digits, zero-padded on the left, that denote `floor (scale * 2^256 / diff)`. -/
theorem CuckooDiffToTarget_value (scale : Nat) (diff : Int) (_hs : scale < 2 ^ 64) :
    ((scale : Int) ≥ diff →
        CuckooDiffToTarget scale diff = some (String.mk (List.replicate 64 'f')) ∧
          (hexVal (List.replicate 64 'f') : Int) = 2 ^ 256 - 1) ∧
      ((scale : Int) < diff →
        ∃ s, CuckooDiffToTarget scale diff = some s ∧ s.length = 64 ∧
          (∀ c ∈ s.data, IsLowerHex c) ∧
          (hexVal s.data : Int) = (scale : Int) * 2 ^ 256 / diff) := by
  refine ⟨fun h => ⟨?_, ?_⟩, CuckooDiffToTarget_of_lt scale diff⟩
  · unfold CuckooDiffToTarget
    simp only []
    rw [if_pos h, fmtHexBig_max]
  · rw [hexVal_max]; norm_num

theorem CuckooDiffToTarget_value_witness :
    (100 : Nat) < 2 ^ 64 ∧ ((100 : Nat) : Int) ≥ 50 ∧ ((3 : Nat) : Int) < 1000 ∧
      CuckooDiffToTarget 100 50 = some (String.mk (List.replicate 64 'f')) ∧
      ∃ s, CuckooDiffToTarget 3 1000 = some s ∧ s.length = 64 ∧
        (∀ c ∈ s.data, IsLowerHex c) ∧ (hexVal s.data : Int) = ((3 : Nat) : Int) * 2 ^ 256 / 1000 :=
  ⟨by decide, by decide, by decide,
    ((CuckooDiffToTarget_value 100 50 (by decide)).1 (by decide)).1,
    (CuckooDiffToTarget_value 3 1000 (by decide)).2 (by decide)⟩

/-- `CalcCuckooDiff` when neither boundary case applies. -/
theorem CalcCuckooDiff_of_lt (scale : Nat) (h : List Nat) (hc : (scale : Int) < HashToBig h) :
    CalcCuckooDiff scale h = some ((scale : Int) * 2 ^ 256 / HashToBig h) := by
  have h0 : 0 < HashToBig h := lt_of_le_of_lt (Int.ofNat_nonneg _) hc
  unfold CalcCuckooDiff
  simp only [Lsh_one]
  rw [if_neg (Int.not_le.mpr h0), if_neg (Int.not_le.mpr hc), bigDiv_of_pos _ _ h0]
  norm_num

set_option maxRecDepth 8192 in
/-- C18, as stated, fails at `scale = 1`, `diff = 2^255 + 1`: the target is
`floor (2^256 / (2^255 + 1)) = 1`, rendered as 63 zeros and a `1`; for the hash
of value 1 the code finds `scale ≥ 1` and returns `2^256`, not `diff`. -/
theorem CalcCuckooDiff_not_inverse :
    (0 : Nat) < 1 ∧ (((2 ^ 255 + 1 : Nat) : Int) > ((1 : Nat) : Int)) ∧
      IsHash (1 :: List.replicate 31 0) ∧
      CuckooDiffToTarget 1 ((2 ^ 255 + 1 : Nat) : Int) =
        some "0000000000000000000000000000000000000000000000000000000000000001" ∧
      HashToBig (1 :: List.replicate 31 0) =
        (hexVal "0000000000000000000000000000000000000000000000000000000000000001".data : Int) ∧
      CalcCuckooDiff 1 (1 :: List.replicate 31 0) = some ((2 ^ 256 : Nat) : Int) ∧
      CalcCuckooDiff 1 (1 :: List.replicate 31 0) ≠ some ((2 ^ 255 + 1 : Nat) : Int) := by
  decide

/-- C18, amended: for every `scale > 0` and every difficulty `diff > scale`
with `diff * (diff + 1) ≤ scale * 2^256`, if `h` is the 32-byte hash whose
integer value `HashToBig h` is the target denoted by
`CuckooDiffToTarget scale diff`, then `CalcCuckooDiff scale h = diff`. -/
theorem CalcCuckooDiff_inverse (scale : Nat) (diff : Int) (h : List Nat) (s : String)
    (_h0 : 0 < scale) (hlt : (scale : Int) < diff)
    (hsmall : diff * (diff + 1) ≤ (scale : Int) * 2 ^ 256) (_hh : IsHash h)
    (hs : CuckooDiffToTarget scale diff = some s)
    (hv : HashToBig h = (hexVal s.data : Int)) :
    CalcCuckooDiff scale h = some diff := by
  obtain ⟨s', hs', _, _, hval⟩ := CuckooDiffToTarget_of_lt scale diff hlt
  have hss : s = s' := by
    rw [hs] at hs'; exact Option.some.inj hs'
  subst hss
  rw [hval] at hv
  have hd : 0 < diff := lt_of_le_of_lt (Int.ofNat_nonneg _) hlt
  have hT1 : diff + 1 ≤ (scale : Int) * 2 ^ 256 / diff := by
    rw [Int.le_ediv_iff_mul_le hd, Int.mul_comm]; exact hsmall
  have hc : (scale : Int) < HashToBig h := by
    rw [hv]
    exact lt_of_lt_of_le (lt_trans hlt (Int.lt_succ diff)) hT1
  rw [CalcCuckooDiff_of_lt scale h hc, hv]
  refine congrArg some ?_
  generalize (scale : Int) * 2 ^ 256 = M at hT1 ⊢
  have hT2 : M / diff * diff ≤ M := Int.ediv_mul_le M (ne_of_gt hd)
  have hT3 : M < (M / diff + 1) * diff := Int.lt_ediv_add_one_mul_self M hd
  generalize M / diff = T at hT1 hT2 hT3 ⊢
  have hT : 0 < T := by omega
  have hlo : diff ≤ M / T := by
    rw [Int.le_ediv_iff_mul_le hT, Int.mul_comm]; exact hT2
  have hhi : M / T < diff + 1 := by
    rw [Int.ediv_lt_iff_lt_mul hT]
    nlinarith
  omega

theorem CalcCuckooDiff_inverse_witness :
    (0 : Nat) < 1 ∧ ((1 : Nat) : Int) < 2 ∧
      (2 : Int) * (2 + 1) ≤ ((1 : Nat) : Int) * 2 ^ 256 ∧
      IsHash (List.replicate 31 0 ++ [128]) ∧
      CuckooDiffToTarget 1 2 =
        some "8000000000000000000000000000000000000000000000000000000000000000" ∧
      HashToBig (List.replicate 31 0 ++ [128]) =
        (hexVal "8000000000000000000000000000000000000000000000000000000000000000".data : Int) ∧
      CalcCuckooDiff 1 (List.replicate 31 0 ++ [128]) = some 2 :=
  ⟨by decide, by decide, by norm_num, by decide, by decide, by decide,
    CalcCuckooDiff_inverse 1 2 (List.replicate 31 0 ++ [128])
      "8000000000000000000000000000000000000000000000000000000000000000"
      (by decide) (by decide) (by norm_num) (by decide) (by decide) (by decide)⟩

/-- C19: for every input, no division performed by `CalcWork`,
`CalcCuckooDiff` or `CuckooDiffToTarget` has a zero divisor: each function
returns a value, the degenerate inputs being answered by their sentinel
branch. -/
theorem no_zero_divisor :
    (∀ (bits : Nat) (p : PowType), (CalcWork bits p).isSome = true) ∧
      (∀ (scale : Nat) (blockHash : List Nat), (CalcCuckooDiff scale blockHash).isSome = true) ∧
      (∀ (scale : Nat) (diff : Int), (CuckooDiffToTarget scale diff).isSome = true) := by
  refine ⟨?_, ?_, ?_⟩
  · intro bits p
    by_cases h : CompactToBig bits ≤ 0
    · unfold CalcWork
      simp only []
      rw [if_pos h]; rfl
    · have hpos : 0 < CompactToBig bits := Int.not_le.mp h
      by_cases hp : p = PowType.BLAKE2BD
      · rw [hp, CalcWork_hash bits hpos]; rfl
      · rw [CalcWork_cuckoo bits p hp hpos]; rfl
  · intro scale blockHash
    unfold CalcCuckooDiff
    simp only []
    by_cases h0 : HashToBig blockHash ≤ 0
    · rw [if_pos h0]; rfl
    · rw [if_neg h0]
      by_cases h1 : (scale : Int) ≥ HashToBig blockHash
      · rw [if_pos h1]; rfl
      · rw [if_neg h1, bigDiv_of_pos _ _ (Int.not_le.mp h0)]; rfl
  · intro scale diff
    by_cases h : (scale : Int) ≥ diff
    · unfold CuckooDiffToTarget
      simp only []
      rw [if_pos h]; rfl
    · obtain ⟨s, hs, _⟩ := CuckooDiffToTarget_of_lt scale diff (Int.not_le.mp h)
      rw [hs]; rfl

/-- C20: unknown names never fail: for every network name other than
`testnet`, `privnet`, `mainnet` and `mixnet`, `getNetWork` returns the testnet
parameters, and for every algorithm name other than `cuckaroo`, `cuckaroom` and
`cuckatoo`, `getCuckooScale` returns 0, whatever the parameters, the edge bits
and the main height. -/
theorem unknown_names_default {Params Config : Type} (ext : Externals Params Config) :
    (∀ network : String, network ≠ "testnet" → network ≠ "privnet" → network ≠ "mainnet" →
        network ≠ "mixnet" → getNetWork ext network = ext.TestNetParams) ∧
      (∀ (powType : String) (p : Params) (edgeBits mheight : Int),
        powType ≠ "cuckaroo" → powType ≠ "cuckaroom" → powType ≠ "cuckatoo" →
          getCuckooScale ext powType p edgeBits mheight = 0) := by
  refine ⟨?_, ?_⟩
  · intro network h1 h2 h3 h4
    unfold getNetWork
    rw [if_neg h1, if_neg h2, if_neg h3, if_neg h4]
  · intro powType p edgeBits mheight h1 h2 h3
    unfold getCuckooScale
    rw [if_neg h1, if_neg h2, if_neg h3]

theorem unknown_names_default_witness :
    getNetWork sampleExternals "regtest" = sampleExternals.TestNetParams ∧
      getCuckooScale sampleExternals "blake2bd" 3 24 100 = 0 :=
  ⟨(unknown_names_default sampleExternals).1 "regtest" (by decide) (by decide) (by decide)
      (by decide),
    (unknown_names_default sampleExternals).2 "blake2bd" 3 24 100 (by decide) (by decide)
      (by decide)⟩


/-! ## Name resolution and the command line -/

/-- C21, at the name `cuckatoo`: for every parameter set, edge bits and main
height, `getCuckooScale` returns the graph weight of the `Cuckaroo` instance; on
the sample instance, whose three weights differ, this is not the graph weight
of the `Cuckatoo` instance. -/
theorem getCuckooScale_cuckatoo :
    (∀ (Params Config : Type) (ext : Externals Params Config) (p : Params)
        (edgeBits mheight : Int),
        getCuckooScale ext "cuckatoo" p edgeBits mheight =
          toInt64 (ext.CuckarooGraphWeight mheight (toUint8 edgeBits) (ext.PowConfig p))) ∧
      getCuckooScale sampleExternals "cuckatoo" 3 24 100 = 1137 ∧
      toInt64 (sampleExternals.CuckatooGraphWeight 100 (toUint8 24)
        (sampleExternals.PowConfig 3)) = 3137 := by
  refine ⟨?_, by decide, by decide⟩
  intro Params Config ext p edgeBits mheight
  unfold getCuckooScale
  rw [if_neg (by decide), if_neg (by decide), if_pos rfl]

/-- C22, on the run `bx target-to-compact -pow v a`: for every `v` and `a` the
conversion is called with the pow type `hash`, the default stored in `powtype`
at registration, because the option of this command is bound to `mode`; with
`v = cuckoo24` the call is not `TargetToCompact(a, v)`. -/
theorem targetToCompact_ignores_pow :
    (∀ v a : String, runTargetToCompact v a = (a, "hash")) ∧
      runTargetToCompact "cuckoo24" "ffff" ≠ ("ffff", "cuckoo24") := by
  refine ⟨fun v a => rfl, by decide⟩

/-! ## Stake difficulty -/

theorem Lsh_eq_mul (x : Int) (n : Nat) : Lsh x n = x * 2 ^ n := by
  unfold Lsh
  rw [Nat.shiftLeft_eq]
  by_cases hx : x < 0
  · rw [if_pos hx]
    push_cast
    rw [abs_of_neg hx]; ring
  · rw [if_neg hx]
    push_cast
    rw [abs_of_nonneg (by omega)]

theorem bigDiv_isSome (x y : Int) : (bigDiv x y).isSome = true ↔ y ≠ 0 := by
  unfold bigDiv
  by_cases h : y = 0
  · rw [if_pos h]; simp [h]
  · rw [if_neg h]; simp [h]

theorem bigDiv_of_ne (x y : Int) (hy : y ≠ 0) : bigDiv x y = some (x / y) := by
  unfold bigDiv
  rw [if_neg hy]

theorem bigDiv_zero (x : Int) : bigDiv x 0 = none := by
  unfold bigDiv
  rw [if_pos rfl]

theorem ediv_eq_zero_iff' (a b : Int) (hb : b ≠ 0) : a / b = 0 ↔ (0 ≤ a ∧ a < |b|) := by
  constructor
  · intro h
    have h1 := Int.emod_add_ediv a b
    rw [h, Int.mul_zero, Int.add_zero] at h1
    have h2 := Int.emod_nonneg a hb
    have h3 := Int.emod_lt a hb
    rw [h1] at h2 h3
    exact ⟨h2, h3⟩
  · rintro ⟨h0, h1⟩
    rcases lt_or_gt_of_ne hb with hneg | hpos
    · rw [abs_of_neg hneg] at h1
      have h2 : a / (-b) = 0 := Int.ediv_eq_zero_of_lt h0 h1
      rw [Int.ediv_neg] at h2
      omega
    · rw [abs_of_pos hpos] at h1
      exact Int.ediv_eq_zero_of_lt h0 h1

/-- The three divisions of `mergeDifficulty` succeed exactly when their
divisors are not zero. -/
theorem mergeDifficulty_isSome (o n1 n2 : Int) :
    (mergeDifficulty o n1 n2).isSome = true ↔ (n1 ≠ 0 ∧ o ≠ 0 ∧ o * 2 ^ 32 / n1 ≠ 0) := by
  unfold mergeDifficulty
  simp only [Lsh_eq_mul]
  by_cases h1 : n1 = 0
  · subst h1
    rw [bigDiv_zero]
    simp
  · rw [bigDiv_of_ne _ _ h1, Option.some_bind]
    by_cases h2 : o = 0
    · subst h2
      rw [bigDiv_zero]
      simp
    · rw [bigDiv_of_ne _ _ h2, Option.some_bind]
      by_cases h3 : o * 2 ^ 32 / n1 = 0
      · rw [h3, bigDiv_zero]
        simp
      · rw [bigDiv_of_ne _ _ h3, Option.some_bind]
        exact ⟨fun _ => ⟨h1, h2, h3⟩, fun _ => rfl⟩

/-- C23, as stated, fails: with `oldDiff = 0` the second division, with
`newDiff1 = 0` the first one, and with `oldDiff = 1`, `newDiff1 = 2^33` the third
one (whose divisor is the quotient `(1 << 32) / 2^33 = 0`) has a zero divisor. -/
theorem mergeDifficulty_not_total :
    mergeDifficulty 0 1 1 = none ∧ mergeDifficulty 1 0 1 = none ∧
      mergeDifficulty 1 8589934592 1 = none ∧ (2 : Int) ^ 33 = 8589934592 ∧
      (8589934592 : Int) < 2 ^ 63 := by
  decide

/-- C23, amended: for all `int64` inputs, the three divisions of
`mergeDifficulty` have non-zero divisors, and the function returns a value,
exactly when `newDiff1 ≠ 0`, `oldDiff ≠ 0` and the intermediate quotient
`(oldDiff << 32) / newDiff1` is not 0, that is, not
`0 < oldDiff` and `oldDiff * 2^32 < |newDiff1|`. -/
theorem mergeDifficulty_defined_iff (oldDiff newDiff1 newDiff2 : Int)
    (_ho : -2 ^ 63 ≤ oldDiff ∧ oldDiff < 2 ^ 63)
    (_h1 : -2 ^ 63 ≤ newDiff1 ∧ newDiff1 < 2 ^ 63)
    (_h2 : -2 ^ 63 ≤ newDiff2 ∧ newDiff2 < 2 ^ 63) :
    (mergeDifficulty oldDiff newDiff1 newDiff2).isSome = true ↔
      (newDiff1 ≠ 0 ∧ oldDiff ≠ 0 ∧ ¬ (0 < oldDiff ∧ oldDiff * 2 ^ 32 < |newDiff1|)) := by
  rw [mergeDifficulty_isSome]
  constructor
  · rintro ⟨h1, h2, h3⟩
    refine ⟨h1, h2, ?_⟩
    rintro ⟨hpos, hlt⟩
    exact h3 ((ediv_eq_zero_iff' _ _ h1).mpr ⟨by positivity, hlt⟩)
  · rintro ⟨h1, h2, h3⟩
    refine ⟨h1, h2, ?_⟩
    intro hq
    obtain ⟨h0, hlt⟩ := (ediv_eq_zero_iff' _ _ h1).mp hq
    apply h3
    refine ⟨?_, hlt⟩
    have : 0 ≤ oldDiff := by
      by_contra hneg
      have : oldDiff * 2 ^ 32 < 0 := by
        have h32 : (0 : Int) < 2 ^ 32 := by norm_num
        nlinarith
      omega
    omega

theorem mergeDifficulty_defined_iff_witness :
    (-(2 : Int) ^ 63 ≤ 5 ∧ (5 : Int) < 2 ^ 63) ∧
      ((mergeDifficulty 5 3 7).isSome = true ↔
        ((3 : Int) ≠ 0 ∧ (5 : Int) ≠ 0 ∧ ¬ ((0 : Int) < 5 ∧ (5 : Int) * 2 ^ 32 < |3|))) :=
  ⟨by decide,
    mergeDifficulty_defined_iff 5 3 7 (by decide) (by decide) (by decide)⟩

/-! ## Further properties of the conversions -/

theorem CalcCuckooDiff_of_ge (scale : Nat) (h : List Nat) (hc : HashToBig h ≤ (scale : Int)) :
    CalcCuckooDiff scale h = some ((2 ^ 256 : Nat) : Int) := by
  unfold CalcCuckooDiff
  simp only [Lsh_one]
  by_cases h0 : HashToBig h ≤ 0
  · rw [if_pos h0]
  · rw [if_neg h0, if_pos hc]

theorem CuckooDiffToTarget_of_ge (scale : Nat) (diff : Int) (h : (scale : Int) ≥ diff) :
    CuckooDiffToTarget scale diff = some (String.mk (List.replicate 64 'f')) := by
  unfold CuckooDiffToTarget
  simp only []
  rw [if_pos h, fmtHexBig_max]

theorem HashToBig_lt (h : List Nat) (hh : IsHash h) :
    HashToBig h < ((2 ^ 256 : Nat) : Int) := by
  obtain ⟨hlen, hb⟩ := hh
  rw [HashToBig_eq_foldr]
  have h1 := foldr_lt h hb
  rw [hlen] at h1
  have h2 : (256 : Nat) ^ 32 = 2 ^ 256 := by norm_num
  rw [h2] at h1
  exact Int.ofNat_lt.mpr h1

/-- The target rendered for a difficulty `d = floor (M / c)` or for the
sentinel is at least `c`, where `M = scale * 2^256` and `c < 2^256`. -/
theorem target_ge (scale : Nat) (c d N : Int) (hN : N = ((2 ^ 256 : Nat) : Int)) (hc0 : 0 ≤ c)
    (hcN : c < N)
    (hd : d = N ∧ c ≤ (scale : Int) ∨ d = (scale : Int) * N / c ∧ (scale : Int) < c) :
    ∃ s, CuckooDiffToTarget scale d = some s ∧ c ≤ (hexVal s.data : Int) := by
  by_cases hge : (scale : Int) ≥ d
  · refine ⟨_, CuckooDiffToTarget_of_ge scale d hge, ?_⟩
    show c ≤ ((hexVal (List.replicate 64 'f') : Nat) : Int)
    rw [hexVal_max]
    have h1 : ((2 ^ 256 - 1 : Nat) : Int) = ((2 ^ 256 : Nat) : Int) - 1 := by
      rw [Int.ofNat_sub (Nat.one_le_two_pow)]; rfl
    rw [h1, ← hN]
    exact Int.le_sub_one_of_lt hcN
  · have hlt : (scale : Int) < d := Int.not_le.mp hge
    obtain ⟨s, hs, _, _, hval⟩ := CuckooDiffToTarget_of_lt scale d hlt
    refine ⟨s, hs, ?_⟩
    rw [hval]
    have hN' : ((2 : Int) ^ 256) = N := by rw [hN]; norm_num
    rw [hN']
    have hd0 : 0 < d := lt_of_le_of_lt (Int.ofNat_nonneg _) hlt
    rcases hd with ⟨hdN, hcs⟩ | ⟨hdq, hsc⟩
    · rw [hdN, Int.mul_ediv_cancel _ (ne_of_gt (lt_of_le_of_lt hc0 hcN))]
      exact hcs
    · have hcpos : 0 < c := lt_of_le_of_lt (Int.ofNat_nonneg _) hsc
      rw [Int.le_ediv_iff_mul_le hd0, hdq, Int.mul_comm]
      exact Int.ediv_mul_le _ (ne_of_gt hcpos)

/-- C24: for every scale and every 32-byte hash `h`, the integer denoted by
`CuckooDiffToTarget scale (CalcCuckooDiff scale h)` is at least `HashToBig h`. -/
theorem target_of_own_difficulty (scale : Nat) (h : List Nat) (_hs : scale < 2 ^ 64)
    (hh : IsHash h) :
    ∃ d s, CalcCuckooDiff scale h = some d ∧ CuckooDiffToTarget scale d = some s ∧
      HashToBig h ≤ (hexVal s.data : Int) := by
  have hc0 := HashToBig_nonneg h
  have hcN := HashToBig_lt h hh
  by_cases hsc : (scale : Int) < HashToBig h
  · have hcode := CalcCuckooDiff_of_lt scale h hsc
    have hN' : ((2 : Int) ^ 256) = ((2 ^ 256 : Nat) : Int) := by norm_num
    rw [hN'] at hcode
    obtain ⟨s, hs, hle⟩ := target_ge scale (HashToBig h) _ _ rfl hc0 hcN (Or.inr ⟨rfl, hsc⟩)
    exact ⟨_, s, hcode, hs, hle⟩
  · have hcs : HashToBig h ≤ (scale : Int) := Int.not_lt.mp hsc
    obtain ⟨s, hs, hle⟩ := target_ge scale (HashToBig h) _ _ rfl hc0 hcN (Or.inl ⟨rfl, hcs⟩)
    exact ⟨_, s, CalcCuckooDiff_of_ge scale h hcs, hs, hle⟩

theorem target_of_own_difficulty_witness :
    (48 : Nat) < 2 ^ 64 ∧ IsHash (List.range 32) ∧
      ∃ d s, CalcCuckooDiff 48 (List.range 32) = some d ∧ CuckooDiffToTarget 48 d = some s ∧
        HashToBig (List.range 32) ≤ (hexVal s.data : Int) :=
  ⟨by decide, by decide, target_of_own_difficulty 48 (List.range 32) (by decide) (by decide)⟩

theorem rawMantissa_mono (k a b : Nat) (hab : a ≤ b) : rawMantissa k a ≤ rawMantissa k b := by
  unfold rawMantissa
  by_cases hk : k + 1 ≤ 3
  · rw [if_pos hk, if_pos hk]; exact Nat.mul_le_mul_right _ hab
  · rw [if_neg hk, if_neg hk]; exact Nat.div_le_div_right hab

/-- Range of the encoding of a positive number of `k + 1` bytes. -/
theorem BigToCompact_pos_range (t k : Nat) (hlo : 256 ^ k ≤ t) (hhi : t < 256 ^ (k + 1))
    (hk : k + 2 < 256) :
    2 ^ 24 * (k + 1) + 2 ^ 16 ≤ BigToCompact (t : Int) ∧
      BigToCompact (t : Int) < 2 ^ 24 * (k + 2) + 2 ^ 16 := by
  obtain ⟨hm1, hm2⟩ := rawMantissa_bounds k t hlo hhi
  by_cases hr : rawMantissa k t < 2 ^ 23
  · rw [BigToCompact_pos_lt t k hlo hhi (by omega) hr]; omega
  · rw [BigToCompact_pos_ge t k hlo hhi hk hr]; omega

/-- C25: for all integers `a`, `b` with `0 < a ≤ b < 2^256`,
`BigToCompact a ≤ BigToCompact b` as unsigned 32-bit integers. -/
theorem BigToCompact_monotone (a b : Nat) (ha : 0 < a) (hab : a ≤ b) (hb : b < 2 ^ 256) :
    BigToCompact (a : Int) ≤ BigToCompact (b : Int) := by
  obtain ⟨ka, _, hloa, hhia⟩ := bytesLen_bounds a ha
  obtain ⟨kb, _, hlob, hhib⟩ := bytesLen_bounds b (by omega)
  have hkb : kb < 32 := lt_pow_bytes b kb 32 hlob (by norm_num at hb ⊢; omega)
  have hkab : ka < kb + 1 := lt_pow_bytes a ka (kb + 1) hloa (by omega)
  by_cases hk : ka = kb
  · subst hk
    have hmono := rawMantissa_mono ka a b hab
    obtain ⟨_, hma⟩ := rawMantissa_bounds ka a hloa hhia
    obtain ⟨_, hmb⟩ := rawMantissa_bounds ka b hlob hhib
    by_cases hra : rawMantissa ka a < 2 ^ 23
    · rw [BigToCompact_pos_lt a ka hloa hhia (by omega) hra]
      by_cases hrb : rawMantissa ka b < 2 ^ 23
      · rw [BigToCompact_pos_lt b ka hlob hhib (by omega) hrb]; omega
      · rw [BigToCompact_pos_ge b ka hlob hhib (by omega) hrb]; omega
    · have hrb : ¬ rawMantissa ka b < 2 ^ 23 := by omega
      rw [BigToCompact_pos_ge a ka hloa hhia (by omega) hra,
        BigToCompact_pos_ge b ka hlob hhib (by omega) hrb]
      have := Nat.div_le_div_right (c := 2 ^ 8) hmono
      omega
  · obtain ⟨_, h1⟩ := BigToCompact_pos_range a ka hloa hhia (by omega)
    obtain ⟨h2, _⟩ := BigToCompact_pos_range b kb hlob hhib (by omega)
    have hlt : ka + 1 ≤ kb := by omega
    omega

theorem BigToCompact_monotone_witness :
    (0 : Nat) < 0x7fffff ∧ (0x7fffff : Nat) ≤ 0x800000 ∧ (0x800000 : Nat) < 2 ^ 256 ∧
      BigToCompact ((0x7fffff : Nat) : Int) ≤ BigToCompact ((0x800000 : Nat) : Int) :=
  ⟨by decide, by decide, by decide,
    BigToCompact_monotone 0x7fffff 0x800000 (by decide) (by decide) (by decide)⟩

/-- C26: for every target `t` with `0 ≤ t < 2^256`,
`BigToCompact (CompactToBig (BigToCompact t)) = BigToCompact t`. -/
theorem BigToCompact_stable (t : Nat) (ht : t < 2 ^ 256) :
    BigToCompact (CompactToBig (BigToCompact (t : Int))) = BigToCompact (t : Int) := by
  rcases Nat.eq_zero_or_pos t with h0 | h0
  · subst h0; decide
  · obtain ⟨k, _, hlo, hhi⟩ := bytesLen_bounds t h0
    have hk : k < 32 := lt_pow_bytes t k 32 hlo (by norm_num at ht ⊢; omega)
    obtain ⟨E, M, hEM, hM1, hM2, hcan⟩ :=
      BigToCompact_pos_canonical t k hlo hhi (Or.inl (by omega))
    have hrange := BigToCompact_pos_range t k hlo hhi (by omega)
    have hE : E < 256 := by
      rw [hEM] at hrange; omega
    rw [hEM, CompactToBig_pack E M hM2]
    exact (encode_canonical E M hE hM1 hM2 hcan).1

theorem BigToCompact_stable_witness :
    (0xffffff : Nat) < 2 ^ 256 ∧
      BigToCompact (CompactToBig (BigToCompact ((0xffffff : Nat) : Int))) =
        BigToCompact ((0xffffff : Nat) : Int) :=
  ⟨by decide, BigToCompact_stable 0xffffff (by decide)⟩


end Pow
